import Mathlib

/-!
Verification of the Semantic Clustering & Similarity Engine of the
shadowops-digest repository, against its natural-language specification.

The Python sources embedded here are `src/backend/clustering.py`
(`TicketClusteringEngine`) and `src/backend/vector_store.py`
(`TicketVectorStore`).  Texts are modelled as `List Char` (ASCII view of
Python strings), machine floats as real numbers, and numpy vectors as
functions `Fin d → ℝ`.  External collaborators (the OpenAI embedding
provider, the naming oracle, scikit-learn KMeans and TF-IDF, the FAISS
index) are passed as explicit function parameters, mirroring the
dependency-injection reading of the controller; every internal algorithm
(normalisation, grouping, naming, de-duplication, refinement, the store's
insert/search/cohesion) is translated statement by statement from the
source.
-/

namespace ShadowOps

/-! ### Text normaliser: `TicketClusteringEngine._preprocess_ticket`

`clustering.py` lines 322-344:
`text = ticket.lower().strip()`, then `re.sub(r'[^\w\s]', ' ', text)`,
then `re.sub(r'\s+', ' ', text)`, then keep the whitespace-split tokens of
length at least 2 and join them with single spaces. -/

/-- Python `str.lower()` on an ASCII character: map `A`-`Z` to `a`-`z`. -/
def lowerChar (c : Char) : Char :=
  if 'A' ≤ c ∧ c ≤ 'Z' then Char.ofNat (c.toNat + 32) else c

/-- Python's regex class `\s` (ASCII): space, tab, newline, carriage
return, vertical tab, form feed. -/
def isPySpace (c : Char) : Bool :=
  c = ' ' || c = '\t' || c = '\n' || c = '\r' || c = '\x0b' || c = '\x0c'

/-- Python's regex class `\w` (ASCII): letters, digits and underscore. -/
def isWordChar (c : Char) : Bool :=
  ('a' ≤ c && c ≤ 'z') || ('A' ≤ c && c ≤ 'Z') || ('0' ≤ c && c ≤ '9') || c = '_'

/-- An ASCII alphanumeric character (no underscore); the class the spec's
words describe. -/
def isAlnumChar (c : Char) : Bool :=
  ('a' ≤ c && c ≤ 'z') || ('A' ≤ c && c ≤ 'Z') || ('0' ≤ c && c ≤ '9')

/-- Python `str.strip()`: drop leading and trailing whitespace. -/
def pyStrip (s : List Char) : List Char :=
  ((s.dropWhile isPySpace).reverse.dropWhile isPySpace).reverse

/-- The character map of `re.sub(r'[^\w\s]', ' ', text)`: a character that
is neither a word character nor whitespace becomes a space. -/
def sanChar (c : Char) : Char :=
  if !isWordChar c && !isPySpace c then ' ' else c

/-- `re.sub(r'[^\w\s]', ' ', text)`. -/
def sanitizeWord (s : List Char) : List Char :=
  s.map sanChar

/-- The same replacement with the spec's character class ("every
non-alphanumeric, non-whitespace character"): underscore is replaced too. -/
def sanitizeAlnum (s : List Char) : List Char :=
  s.map fun c => if !isAlnumChar c && !isPySpace c then ' ' else c

/-- Worker for `re.sub(r'\s+', ' ', text)`: the flag records whether the
previous character belonged to a whitespace run already rewritten. -/
def collapseGo : Bool → List Char → List Char
  | _, [] => []
  | inRun, c :: rest =>
    if isPySpace c then
      if inRun then collapseGo true rest else ' ' :: collapseGo true rest
    else c :: collapseGo false rest

/-- `re.sub(r'\s+', ' ', text)`: every maximal whitespace run becomes one
space. -/
def collapseWs (s : List Char) : List Char :=
  collapseGo false s

/-- Worker for `str.split()`: `cur` is the reversed current token. -/
def tokensGo (cur : List Char) : List Char → List (List Char)
  | [] => if cur.isEmpty then [] else [cur.reverse]
  | c :: rest =>
    if isPySpace c then
      if cur.isEmpty then tokensGo [] rest else cur.reverse :: tokensGo [] rest
    else tokensGo (c :: cur) rest

/-- Python `str.split()` with no argument: whitespace-separated tokens,
empty tokens discarded. -/
def pyTokens (s : List Char) : List (List Char) :=
  tokensGo [] s

/-- `' '.join(words)`. -/
def joinSpace (ws : List (List Char)) : List Char :=
  (ws.intersperse [' ']).flatten

/-- Model of `TicketClusteringEngine._preprocess_ticket`
(`clustering.py` lines 322-344), composed in the source's order:
`ticket.lower().strip()`, punctuation replacement, whitespace collapse,
split, keep tokens of length at least 2, join with single spaces. -/
def preprocessTicket (ticket : List Char) : List Char :=
  joinSpace ((pyTokens (collapseWs (sanitizeWord (pyStrip (ticket.map lowerChar))))).filter
    fun w => 2 ≤ w.length)

/-- The Text Normalizer exactly as the claim's words state it: lower-case;
replace every non-alphanumeric, non-whitespace character with a space;
collapse whitespace runs to one space; drop tokens shorter than 2
characters; trim. -/
def specNormalize (ticket : List Char) : List Char :=
  pyStrip (joinSpace
    ((pyTokens (collapseWs (sanitizeAlnum (ticket.map lowerChar)))).filter
      fun w => 2 ≤ w.length))

/-- The claim's pipeline amended only in its character class: a word
character (alphanumeric or underscore) survives, as in the source's
`\w`. -/
def specNormalizeWord (ticket : List Char) : List Char :=
  pyStrip (joinSpace
    ((pyTokens (collapseWs (sanitizeWord (ticket.map lowerChar)))).filter
      fun w => 2 ≤ w.length))

/-! ### Cluster count heuristic: `_determine_cluster_count`
(`clustering.py` lines 492-513). -/

/-- Model of `TicketClusteringEngine._determine_cluster_count`. -/
def determineClusterCount (numTickets : Nat) : Nat :=
  if numTickets ≤ 2 then 1
  else if numTickets ≤ 5 then 2
  else if numTickets ≤ 10 then 3
  else if numTickets ≤ 20 then min 4 (numTickets / 3)
  else if numTickets ≤ 50 then min 6 (numTickets / 5)
  else min 10 (numTickets / 8)

example : preprocessTicket "  VPN is DOWN!! ".toList = "vpn is down".toList := by decide
example : preprocessTicket "a_b".toList = "a_b".toList := by decide
example : specNormalize "a_b".toList = [] := by decide
example : determineClusterCount 6 = 3 := by decide
example : determineClusterCount 55 = 6 := by decide

/-! ### Character-level lemmas for the normaliser -/

theorem char_eq_iff {c d : Char} : c = d ↔ c.toNat = d.toNat :=
  ⟨congrArg _, fun h => Char.ext (UInt32.ext h)⟩

theorem toNat_ofNat_valid {n : Nat} (h : n.isValidChar) : (Char.ofNat n).toNat = n := by
  simp only [Char.ofNat, Char.ofNatAux, h, dite_true, Char.toNat]
  rfl

theorem lowerChar_toNat_of_upper {c : Char} (h : 'A' ≤ c ∧ c ≤ 'Z') :
    (lowerChar c).toNat = c.toNat + 32 := by
  have h2 : c.toNat ≤ 90 := h.2
  simp only [lowerChar, if_pos h]
  exact toNat_ofNat_valid (Or.inl (by omega))

theorem lowerChar_eq_self {c : Char} (h : ¬('A' ≤ c ∧ c ≤ 'Z')) : lowerChar c = c :=
  if_neg h

theorem lowerChar_not_upper (c : Char) : ¬('A' ≤ lowerChar c ∧ lowerChar c ≤ 'Z') := by
  by_cases h : 'A' ≤ c ∧ c ≤ 'Z'
  · have h1 : 65 ≤ c.toNat := h.1
    have h2 := lowerChar_toNat_of_upper h
    intro hk
    have h3 : (lowerChar c).toNat ≤ 90 := hk.2
    omega
  · rw [lowerChar_eq_self h]
    exact h

theorem lowerChar_idem (c : Char) : lowerChar (lowerChar c) = lowerChar c :=
  lowerChar_eq_self (lowerChar_not_upper c)

theorem word_not_space {c : Char} (h : isWordChar c = true) : isPySpace c = false := by
  simp only [isWordChar, Bool.or_eq_true, Bool.and_eq_true, decide_eq_true_eq] at h
  simp only [isPySpace, Bool.or_eq_false_iff, decide_eq_false_iff_not, char_eq_iff]
  have hs1 : (' ').toNat = 32 := rfl
  have hs2 : ('\t').toNat = 9 := rfl
  have hs3 : ('\n').toNat = 10 := rfl
  have hs4 : ('\r').toNat = 13 := rfl
  have hs5 : ('\x0b').toNat = 11 := rfl
  have hs6 : ('\x0c').toNat = 12 := rfl
  rcases h with ((⟨h1, h2⟩ | ⟨h1, h2⟩) | ⟨h1, h2⟩) | h1
  · have t1 : 97 ≤ c.toNat := h1
    have t2 : c.toNat ≤ 122 := h2
    omega
  · have t1 : 65 ≤ c.toNat := h1
    have t2 : c.toNat ≤ 90 := h2
    omega
  · have t1 : 48 ≤ c.toNat := h1
    have t2 : c.toNat ≤ 57 := h2
    omega
  · have t1 : c.toNat = 95 := h1 ▸ rfl
    omega

theorem space_isPySpace : isPySpace ' ' = true := by decide

/-- A whitespace character survives the punctuation replacement. -/
theorem sanChar_space {c : Char} (h : isPySpace c = true) : sanChar c = c := by
  simp [sanChar, h]

/-- A non-whitespace character of the replacement's output is a word
character. -/
theorem sanChar_word {c : Char} (h : isPySpace (sanChar c) = false) :
    isWordChar (sanChar c) = true ∧ sanChar c = c := by
  by_cases hw : isWordChar c = true
  · have he : sanChar c = c := by simp [sanChar, hw]
    exact ⟨by rw [he]; exact hw, he⟩
  · by_cases hs : isPySpace c = true
    · rw [sanChar_space hs] at h
      exact absurd h (by simp [hs])
    · have : sanChar c = ' ' := by
        simp only [sanChar]
        rw [if_pos]
        simp [Bool.eq_false_iff.2 hw, Bool.eq_false_iff, hs]
        try simp_all
      rw [this] at h
      exact absurd h (by simp [space_isPySpace])

/-! ### Token-level lemmas for the normaliser -/

theorem tokensGo_nil (cur : List Char) :
    tokensGo cur [] = if cur.isEmpty then [] else [cur.reverse] := rfl

theorem tokensGo_cons_space {c : Char} (h : isPySpace c = true) (cur s) :
    tokensGo cur (c :: s) =
      if cur.isEmpty then tokensGo [] s else cur.reverse :: tokensGo [] s := by
  simp [tokensGo, h]

theorem tokensGo_cons_nonspace {c : Char} (h : isPySpace c = false) (cur s) :
    tokensGo cur (c :: s) = tokensGo (c :: cur) s := by
  simp [tokensGo, h]

/-- Splitting an all-whitespace string yields no token beyond the pending
one. -/
theorem tokensGo_allspace {w : List Char} (hw : ∀ c ∈ w, isPySpace c = true) (cur) :
    tokensGo cur w = if cur.isEmpty then [] else [cur.reverse] := by
  induction w generalizing cur with
  | nil => rfl
  | cons c w ih =>
    have hc := hw c (List.mem_cons_self c w)
    rw [tokensGo_cons_space hc]
    have hrest : ∀ x ∈ w, isPySpace x = true := fun x hx => hw x (List.mem_cons_of_mem _ hx)
    by_cases hcur : cur.isEmpty <;> simp [hcur, ih hrest]

/-- Collapsing whitespace runs does not change the token split. -/
theorem tokensGo_collapse (s : List Char) :
    (∀ cur, tokensGo cur (collapseGo false s) = tokensGo cur s) ∧
    (tokensGo [] (collapseGo true s) = tokensGo [] s) := by
  induction s with
  | nil => exact ⟨fun _ => rfl, rfl⟩
  | cons c rest ih =>
    cases hc : isPySpace c with
    | true =>
      constructor
      · intro cur
        have e1 : collapseGo false (c :: rest) = ' ' :: collapseGo true rest := by
          simp [collapseGo, hc]
        rw [e1, tokensGo_cons_space space_isPySpace, tokensGo_cons_space hc]
        by_cases hcur : cur.isEmpty <;> simp [hcur, ih.2]
      · have e1 : collapseGo true (c :: rest) = collapseGo true rest := by
          simp [collapseGo, hc]
        rw [e1, tokensGo_cons_space hc, ih.2]
        simp
    | false =>
      constructor
      · intro cur
        have e1 : collapseGo false (c :: rest) = c :: collapseGo false rest := by
          simp [collapseGo, hc]
        rw [e1, tokensGo_cons_nonspace hc, tokensGo_cons_nonspace hc, ih.1]
      · have e1 : collapseGo true (c :: rest) = c :: collapseGo false rest := by
          simp [collapseGo, hc]
        rw [e1, tokensGo_cons_nonspace hc, tokensGo_cons_nonspace hc, ih.1]

theorem pyTokens_collapseWs (s : List Char) : pyTokens (collapseWs s) = pyTokens s :=
  (tokensGo_collapse s).1 []

/-- Leading whitespace of the input does not change the token split of the
character-mapped string, when the map fixes whitespace. -/
theorem tokensGo_map_dropWhile (f : Char → Char) (hf : ∀ c, isPySpace c = true → f c = c)
    (s : List Char) :
    tokensGo [] ((s.dropWhile isPySpace).map f) = tokensGo [] (s.map f) := by
  induction s with
  | nil => rfl
  | cons c rest ih =>
    cases hc : isPySpace c with
    | true =>
      rw [List.dropWhile_cons]
      simp only [hc, if_true, List.map_cons]
      rw [ih, hf c hc, tokensGo_cons_space hc]
      simp
    | false => simp [List.dropWhile_cons, hc]

/-- Trailing whitespace of the input does not change the token split of
the character-mapped string, when the map fixes whitespace. -/
theorem tokensGo_map_append_spaces (f : Char → Char)
    (hf : ∀ c, isPySpace c = true → f c = c) {w : List Char}
    (hw : ∀ c ∈ w, isPySpace c = true) :
    ∀ (s cur : List Char), tokensGo cur ((s ++ w).map f) = tokensGo cur (s.map f) := by
  intro s
  induction s with
  | nil =>
    intro cur
    have hw' : ∀ c ∈ w.map f, isPySpace c = true := by
      intro c hcmem
      obtain ⟨c0, hc0, rfl⟩ := List.mem_map.1 hcmem
      rw [hf c0 (hw c0 hc0)]
      exact hw c0 hc0
    rw [List.nil_append, tokensGo_allspace hw', List.map_nil, tokensGo_nil]
  | cons c s ih =>
    intro cur
    simp only [List.cons_append, List.map_cons]
    have ih' : ∀ cur, tokensGo cur (List.map f s ++ List.map f w) =
        tokensGo cur (List.map f s) := by
      intro cur
      have ih0 := ih cur
      rwa [List.map_append] at ih0
    cases hfc : isPySpace (f c) with
    | true =>
      rw [tokensGo_cons_space hfc, tokensGo_cons_space hfc]
      by_cases hcur : cur.isEmpty <;> simp [hcur, ih, ih']
    | false =>
      rw [tokensGo_cons_nonspace hfc, tokensGo_cons_nonspace hfc]
      exact ih (f c :: cur)

/-- `str.strip()` on the input does not change the token split of the
character-mapped string, when the map fixes whitespace. -/
theorem tokensGo_map_pyStrip (f : Char → Char) (hf : ∀ c, isPySpace c = true → f c = c)
    (s : List Char) :
    tokensGo [] ((pyStrip s).map f) = tokensGo [] (s.map f) := by
  unfold pyStrip
  set u := s.dropWhile isPySpace with hu
  have hsplit : (u.reverse.dropWhile isPySpace).reverse ++
      (u.reverse.takeWhile isPySpace).reverse = u := by
    conv_rhs =>
      rw [← List.reverse_reverse u,
        ← List.takeWhile_append_dropWhile isPySpace u.reverse]
    rw [List.reverse_append]
  have hw : ∀ c ∈ (u.reverse.takeWhile isPySpace).reverse, isPySpace c = true := by
    intro c hc
    exact List.mem_takeWhile_imp (List.mem_reverse.1 hc)
  calc tokensGo [] (((u.reverse.dropWhile isPySpace).reverse).map f)
      = tokensGo [] (((u.reverse.dropWhile isPySpace).reverse ++
          (u.reverse.takeWhile isPySpace).reverse).map f) :=
        (tokensGo_map_append_spaces f hf hw _ []).symm
    _ = tokensGo [] (u.map f) := by rw [hsplit]
    _ = tokensGo [] (s.map f) := tokensGo_map_dropWhile f hf s

/-- Every token is nonempty, whitespace-free, and drawn from the pending
token or the input. -/
theorem tokensGo_mem {s : List Char} :
    ∀ {cur : List Char}, (∀ c ∈ cur, isPySpace c = false) →
      ∀ t ∈ tokensGo cur s, t ≠ [] ∧ ∀ c ∈ t, isPySpace c = false ∧ (c ∈ cur ∨ c ∈ s) := by
  induction s with
  | nil =>
    intro cur hcur t ht
    rw [tokensGo_nil] at ht
    by_cases hc : cur.isEmpty
    · rw [if_pos hc] at ht
      simp at ht
    · rw [if_neg hc] at ht
      have hteq := List.mem_singleton.1 ht
      subst hteq
      have hcne : cur ≠ [] := by simpa [List.isEmpty_iff] using hc
      refine ⟨by simpa using hcne, ?_⟩
      intro c hcmem
      have : c ∈ cur := List.mem_reverse.1 hcmem
      exact ⟨hcur c this, Or.inl this⟩
  | cons a rest ih =>
    intro cur hcur t ht
    cases ha : isPySpace a with
    | true =>
      rw [tokensGo_cons_space ha] at ht
      by_cases hc : cur.isEmpty
      · rw [if_pos hc] at ht
        obtain ⟨hne, hmem⟩ := ih (by simp) t ht
        refine ⟨hne, fun c hcm => ?_⟩
        obtain ⟨h1, h2⟩ := hmem c hcm
        rcases h2 with h2 | h2
        · simp at h2
        · exact ⟨h1, Or.inr (List.mem_cons_of_mem _ h2)⟩
      · rw [if_neg hc] at ht
        rcases List.mem_cons.1 ht with hteq | ht
        · subst hteq
          have hcne : cur ≠ [] := by simpa [List.isEmpty_iff] using hc
          refine ⟨by simpa using hcne, ?_⟩
          intro c hcmem
          have : c ∈ cur := List.mem_reverse.1 hcmem
          exact ⟨hcur c this, Or.inl this⟩
        · obtain ⟨hne, hmem⟩ := ih (by simp) t ht
          refine ⟨hne, fun c hcm => ?_⟩
          obtain ⟨h1, h2⟩ := hmem c hcm
          rcases h2 with h2 | h2
          · simp at h2
          · exact ⟨h1, Or.inr (List.mem_cons_of_mem _ h2)⟩
    | false =>
      rw [tokensGo_cons_nonspace ha] at ht
      have hcur' : ∀ c ∈ a :: cur, isPySpace c = false := by
        intro c hc
        rcases List.mem_cons.1 hc with rfl | hc
        · exact ha
        · exact hcur c hc
      obtain ⟨hne, hmem⟩ := ih hcur' t ht
      refine ⟨hne, fun c hcm => ?_⟩
      obtain ⟨h1, h2⟩ := hmem c hcm
      rcases h2 with h2 | h2
      · rcases List.mem_cons.1 h2 with rfl | h2
        · exact ⟨h1, Or.inr (List.mem_cons_self _ _)⟩
        · exact ⟨h1, Or.inl h2⟩
      · exact ⟨h1, Or.inr (List.mem_cons_of_mem _ h2)⟩

/-- A whitespace-free prefix passes through the splitter into the pending
token. -/
theorem tokensGo_token_append {tok : List Char} (htok : ∀ c ∈ tok, isPySpace c = false) :
    ∀ (cur u : List Char), tokensGo cur (tok ++ u) = tokensGo (tok.reverse ++ cur) u := by
  induction tok with
  | nil => intro cur u; rfl
  | cons c tok ih =>
    intro cur u
    have hc := htok c (List.mem_cons_self _ _)
    simp only [List.cons_append]
    rw [tokensGo_cons_nonspace hc, ih (fun x hx => htok x (List.mem_cons_of_mem _ hx))]
    simp

/-! ### `joinSpace` structure lemmas -/

theorem joinSpace_nil : joinSpace [] = [] := rfl

theorem joinSpace_single (t : List Char) : joinSpace [t] = t := by
  simp [joinSpace, List.intersperse_singleton]

theorem joinSpace_cons (t r : List Char) (rest : List (List Char)) :
    joinSpace (t :: r :: rest) = t ++ ' ' :: joinSpace (r :: rest) := by
  simp [joinSpace, List.intersperse_cons_cons]

/-- Joining whitespace-free nonempty tokens and splitting again is the
identity. -/
theorem pyTokens_joinSpace {toks : List (List Char)}
    (h : ∀ t ∈ toks, t ≠ [] ∧ ∀ c ∈ t, isPySpace c = false) :
    pyTokens (joinSpace toks) = toks := by
  induction toks with
  | nil => rfl
  | cons t rest ih =>
    obtain ⟨ht, hchars⟩ := h t (List.mem_cons_self _ _)
    have hrest := fun x hx => h x (List.mem_cons_of_mem _ hx)
    have hrevne : t.reverse.isEmpty = false := by
      simp [List.isEmpty_iff, ht]
    cases rest with
    | nil =>
      rw [joinSpace_single]
      unfold pyTokens
      rw [show t = t ++ [] from (List.append_nil t).symm, tokensGo_token_append hchars,
        tokensGo_nil]
      simp [List.append_nil, hrevne]
    | cons r rs =>
      rw [joinSpace_cons]
      unfold pyTokens
      rw [tokensGo_token_append hchars, tokensGo_cons_space space_isPySpace]
      simp only [List.append_nil, hrevne, if_false]
      rw [List.reverse_reverse]
      exact congrArg (t :: ·) (ih hrest)

theorem mem_joinSpace {toks : List (List Char)} {c : Char} (h : c ∈ joinSpace toks) :
    c = ' ' ∨ ∃ t ∈ toks, c ∈ t := by
  induction toks with
  | nil => simp [joinSpace_nil] at h
  | cons t rest ih =>
    cases rest with
    | nil =>
      rw [joinSpace_single] at h
      exact Or.inr ⟨t, by simp, h⟩
    | cons r rs =>
      rw [joinSpace_cons] at h
      rcases List.mem_append.1 h with h1 | h2
      · exact Or.inr ⟨t, by simp, h1⟩
      · rcases List.mem_cons.1 h2 with rfl | h3
        · exact Or.inl rfl
        · rcases ih h3 with h4 | ⟨t', ht', hc'⟩
          · exact Or.inl h4
          · exact Or.inr ⟨t', List.mem_cons_of_mem _ ht', hc'⟩

theorem joinSpace_head {t : List Char} {rest : List (List Char)} (h : t ≠ []) :
    ∃ c y, joinSpace (t :: rest) = c :: y ∧ c ∈ t := by
  obtain ⟨c, t', rfl⟩ := List.exists_cons_of_ne_nil h
  cases rest with
  | nil => exact ⟨c, t', by rw [joinSpace_single], by simp⟩
  | cons r rs =>
    exact ⟨c, t' ++ ' ' :: joinSpace (r :: rs), by rw [joinSpace_cons]; simp, by simp⟩

theorem joinSpace_concat {toks : List (List Char)} (hne : toks ≠ [])
    (h : ∀ t ∈ toks, t ≠ []) :
    ∃ y c, joinSpace toks = y ++ [c] ∧ ∃ t ∈ toks, c ∈ t := by
  induction toks with
  | nil => cases hne rfl
  | cons t rest ih =>
    cases rest with
    | nil =>
      have ht := h t (by simp)
      rcases List.eq_nil_or_concat t with rfl | ⟨y, c, rfl⟩
      · cases ht rfl
      · refine ⟨y, c, ?_, y.concat c, by simp, by simp [List.concat_eq_append]⟩
        rw [joinSpace_single, List.concat_eq_append]
    | cons r rs =>
      obtain ⟨y, c, hy, t', ht', hc'⟩ :=
        ih (by simp) (fun x hx => h x (List.mem_cons_of_mem _ hx))
      refine ⟨t ++ ' ' :: y, c, ?_, t', List.mem_cons_of_mem _ ht', hc'⟩
      rw [joinSpace_cons, hy]
      simp

/-- `str.strip()` fixes a string whose first and last characters are not
whitespace. -/
theorem pyStrip_eq_self {u : List Char}
    (hhead : ∀ c x, u = c :: x → isPySpace c = false)
    (hlast : ∀ y c, u = y ++ [c] → isPySpace c = false) :
    pyStrip u = u := by
  unfold pyStrip
  have h1 : u.dropWhile isPySpace = u := by
    cases u with
    | nil => rfl
    | cons c x =>
      rw [List.dropWhile_cons]
      simp [hhead c x rfl]
  rw [h1]
  cases hcon : u.reverse with
  | nil =>
    have : u = [] := by simpa using congrArg List.reverse hcon
    simp [this]
  | cons c y =>
    have hu : u = y.reverse ++ [c] := by
      have := congrArg List.reverse hcon
      rw [List.reverse_reverse] at this
      simpa using this
    rw [List.dropWhile_cons, hlast _ _ hu]
    simp only [Bool.false_eq_true, if_false]
    rw [← hcon, List.reverse_reverse]

/-- When every token is whitespace-free and nonempty, trimming the joined
string is the identity. -/
theorem pyStrip_joinSpace {toks : List (List Char)}
    (h : ∀ t ∈ toks, t ≠ [] ∧ ∀ c ∈ t, isPySpace c = false) :
    pyStrip (joinSpace toks) = joinSpace toks := by
  cases toks with
  | nil => rfl
  | cons t rest =>
    apply pyStrip_eq_self
    · intro c x hcx
      obtain ⟨c', y, hy, hc'⟩ := @joinSpace_head t rest (h t (by simp)).1
      rw [hy] at hcx
      cases hcx
      exact (h t (by simp)).2 c hc'
    · intro y c hyc
      obtain ⟨y', c', hy', t', ht', hc'⟩ :=
        @joinSpace_concat (t :: rest) (by simp) (fun x hx => (h x hx).1)
      rw [hy'] at hyc
      have h1 : (y ++ [c]).getLast? = some c' := by
        rw [← hyc]
        exact List.getLast?_concat _
      rw [List.getLast?_concat] at h1
      injection h1 with h1
      subst h1
      exact (h t' ht').2 _ hc'

/-! ### `collapseWs` identity on joined tokens -/

theorem collapseGo_append_nonspace {t : List Char} (ht : ∀ c ∈ t, isPySpace c = false) :
    ∀ x, collapseGo false (t ++ x) = t ++ collapseGo false x := by
  induction t with
  | nil => intro x; rfl
  | cons c t ih =>
    intro x
    have hc := ht c (List.mem_cons_self _ _)
    simp only [List.cons_append]
    rw [show collapseGo false (c :: (t ++ x)) = c :: collapseGo false (t ++ x) by
      simp [collapseGo, hc]]
    rw [ih (fun a hx => ht a (List.mem_cons_of_mem _ hx))]

theorem collapseGo_true_eq_false {v : List Char}
    (hv : ∀ c y, v = c :: y → isPySpace c = false) :
    collapseGo true v = collapseGo false v := by
  cases v with
  | nil => rfl
  | cons c y => simp [collapseGo, hv c y rfl]

theorem collapseWs_joinSpace {toks : List (List Char)}
    (h : ∀ t ∈ toks, t ≠ [] ∧ ∀ c ∈ t, isPySpace c = false) :
    collapseWs (joinSpace toks) = joinSpace toks := by
  induction toks with
  | nil => rfl
  | cons t rest ih =>
    obtain ⟨ht, hchars⟩ := h t (List.mem_cons_self _ _)
    have hrest := fun x hx => h x (List.mem_cons_of_mem _ hx)
    cases rest with
    | nil =>
      rw [joinSpace_single]
      unfold collapseWs
      rw [show t = t ++ [] from (List.append_nil t).symm, collapseGo_append_nonspace hchars]
      rfl
    | cons r rs =>
      rw [joinSpace_cons]
      unfold collapseWs
      rw [collapseGo_append_nonspace hchars]
      congr 1
      rw [show collapseGo false (' ' :: joinSpace (r :: rs)) =
          ' ' :: collapseGo true (joinSpace (r :: rs)) by
        simp [collapseGo, space_isPySpace]]
      congr 1
      rw [collapseGo_true_eq_false]
      · exact ih hrest
      · intro c y hcy
        obtain ⟨c', y', hy', hc'⟩ := @joinSpace_head r rs (h r (by simp)).1
        rw [hy'] at hcy
        cases hcy
        exact (h r (by simp)).2 c hc'

theorem map_id_of_fix {f : Char → Char} {u : List Char} (h : ∀ c ∈ u, f c = c) :
    u.map f = u := by
  induction u with
  | nil => rfl
  | cons c rest ih =>
    rw [List.map_cons, h c (List.mem_cons_self _ _),
      ih fun x hx => h x (List.mem_cons_of_mem _ hx)]

/-! ### The normaliser as a token pipeline -/

/-- The tokens the normaliser keeps: whitespace-split tokens of the
punctuation-replaced, lower-cased input, of length at least 2. -/
def toksOf (t : List Char) : List (List Char) :=
  (pyTokens (sanitizeWord (t.map lowerChar))).filter fun w => 2 ≤ w.length

theorem preprocessTicket_eq (t : List Char) :
    preprocessTicket t = joinSpace (toksOf t) := by
  unfold preprocessTicket toksOf
  rw [pyTokens_collapseWs]
  unfold pyTokens sanitizeWord
  rw [tokensGo_map_pyStrip sanChar fun c hc => sanChar_space hc]

theorem toksOf_mem {t w : List Char} (hw : w ∈ toksOf t) :
    2 ≤ w.length ∧ ∀ c ∈ w, isWordChar c = true ∧ lowerChar c = c := by
  have h2 : 2 ≤ w.length := by simpa using (List.mem_filter.1 hw).2
  have hw' : w ∈ pyTokens (sanitizeWord (t.map lowerChar)) := (List.mem_filter.1 hw).1
  obtain ⟨hne, hmem⟩ := tokensGo_mem (by simp) w hw'
  refine ⟨h2, fun c hc => ?_⟩
  obtain ⟨hnsp, hcm⟩ := hmem c hc
  rcases hcm with hcm | hcm
  · simp at hcm
  · obtain ⟨c0, hc0, rfl⟩ := List.mem_map.1 hcm
    obtain ⟨hword, heq⟩ := sanChar_word hnsp
    obtain ⟨c1, hc1, rfl⟩ := List.mem_map.1 hc0
    refine ⟨hword, ?_⟩
    rw [heq, lowerChar_idem]

theorem toksOf_props {t w : List Char} (hw : w ∈ toksOf t) :
    w ≠ [] ∧ ∀ c ∈ w, isPySpace c = false := by
  obtain ⟨h2, hwc⟩ := toksOf_mem hw
  refine ⟨?_, fun c hc => word_not_space (hwc c hc).1⟩
  intro hnil
  subst hnil
  simp at h2

/-- A joined list of word-character tokens of length at least 2 is a fixed
point of the normaliser. -/
theorem preprocess_fixed {toks : List (List Char)}
    (h2 : ∀ w ∈ toks, 2 ≤ w.length)
    (hwc : ∀ w ∈ toks, ∀ c ∈ w, isWordChar c = true ∧ lowerChar c = c) :
    preprocessTicket (joinSpace toks) = joinSpace toks := by
  have hprops : ∀ w ∈ toks, w ≠ [] ∧ ∀ c ∈ w, isPySpace c = false := by
    intro w hw
    refine ⟨?_, fun c hc => word_not_space (hwc w hw c hc).1⟩
    intro hnil
    subst hnil
    have := h2 _ hw
    simp at this
  have hlow : (joinSpace toks).map lowerChar = joinSpace toks := by
    apply map_id_of_fix
    intro c hc
    rcases mem_joinSpace hc with rfl | ⟨w, hw, hcw⟩
    · exact lowerChar_eq_self (by decide)
    · exact (hwc w hw c hcw).2
  have hsan : sanitizeWord (joinSpace toks) = joinSpace toks := by
    apply map_id_of_fix
    intro c hc
    rcases mem_joinSpace hc with rfl | ⟨w, hw, hcw⟩
    · exact sanChar_space space_isPySpace
    · simp [sanChar, (hwc w hw c hcw).1]
  unfold preprocessTicket
  rw [hlow, pyStrip_joinSpace hprops]
  rw [show sanitizeWord (joinSpace toks) = joinSpace toks from hsan]
  rw [collapseWs_joinSpace hprops, pyTokens_joinSpace hprops,
    List.filter_eq_self.2 fun w hw => by simpa using h2 w hw]

/-! ### Claim theorems about the normaliser and the cluster-count
heuristic -/

/-- C9: the Text Normalizer is idempotent: for every input text `x`,
`normalize (normalize x) = normalize x`. -/
theorem c9_normalize_idempotent (x : List Char) :
    preprocessTicket (preprocessTicket x) = preprocessTicket x := by
  rw [preprocessTicket_eq x]
  exact preprocess_fixed (fun w hw => (toksOf_mem hw).1) fun w hw => (toksOf_mem hw).2

/-- C5 fails as stated: the source's regex class `\w` keeps the underscore,
which the claim's class "non-alphanumeric" would replace; on `"a_b"` the code
answers `"a_b"` while the claimed pipeline answers the empty string. -/
theorem c5_counterexample :
    preprocessTicket "a_b".toList ≠ specNormalize "a_b".toList ∧
    preprocessTicket "a_b".toList = "a_b".toList ∧
    specNormalize "a_b".toList = [] := by decide

/-- C5 amended: for every input text the normaliser lower-cases it, replaces
every character that is neither a word character (alphanumeric or underscore)
nor whitespace with a space, collapses whitespace runs to one space, drops
every token shorter than 2 characters and trims; it never fails (it is a total
function). -/
theorem c5_normalizer_pipeline (t : List Char) :
    preprocessTicket t = specNormalizeWord t := by
  have hx : specNormalizeWord t = pyStrip (joinSpace (toksOf t)) := by
    unfold specNormalizeWord toksOf
    rw [pyTokens_collapseWs]
  rw [preprocessTicket_eq, hx, pyStrip_joinSpace fun w hw => toksOf_props hw]

/-- C6: the cluster-count heuristic is a total function of the ticket count
alone (hence pure and deterministic) returning 1 for `n ≤ 2`, 2 for `3-5`,
3 for `6-10`, `min 4 (n/3)` for `11-20`, `min 6 (n/5)` for `21-50`,
`min 10 (n/8)` past 50, always within `[1, 10]` for `n ≥ 1`. -/
theorem c6_cluster_count (n : Nat) (h : 1 ≤ n) :
    (n ≤ 2 → determineClusterCount n = 1) ∧
    (3 ≤ n ∧ n ≤ 5 → determineClusterCount n = 2) ∧
    (6 ≤ n ∧ n ≤ 10 → determineClusterCount n = 3) ∧
    (11 ≤ n ∧ n ≤ 20 → determineClusterCount n = min 4 (n / 3)) ∧
    (21 ≤ n ∧ n ≤ 50 → determineClusterCount n = min 6 (n / 5)) ∧
    (51 ≤ n → determineClusterCount n = min 10 (n / 8)) ∧
    1 ≤ determineClusterCount n ∧ determineClusterCount n ≤ 10 := by
  unfold determineClusterCount
  split_ifs <;> omega

/-- C6 at the concrete count 55. -/
theorem c6_cluster_count_witness :
    1 ≤ 55 ∧
    ((55 ≤ 2 → determineClusterCount 55 = 1) ∧
     (3 ≤ 55 ∧ 55 ≤ 5 → determineClusterCount 55 = 2) ∧
     (6 ≤ 55 ∧ 55 ≤ 10 → determineClusterCount 55 = 3) ∧
     (11 ≤ 55 ∧ 55 ≤ 20 → determineClusterCount 55 = min 4 (55 / 3)) ∧
     (21 ≤ 55 ∧ 55 ≤ 50 → determineClusterCount 55 = min 6 (55 / 5)) ∧
     (51 ≤ 55 → determineClusterCount 55 = min 10 (55 / 8)) ∧
     1 ≤ determineClusterCount 55 ∧ determineClusterCount 55 ≤ 10) :=
  ⟨by decide, c6_cluster_count 55 (by decide)⟩

/-! ### Decimal rendering of naturals, as Python `str(n)` / f-strings use it.
Needed by the `"Issue Category {n}"` fallback names and the
`f"{original_name} {counter}"` de-duplication suffixes. -/

/-- Decimal digits of `n`, least significant first; `fuel ≥ n` suffices for
the full representation (structural recursion keeps the definition
kernel-reducible). -/
def digitsGo : Nat → Nat → List Nat
  | _, 0 => []
  | 0, _ + 1 => []
  | fuel + 1, n + 1 => (n + 1) % 10 :: digitsGo fuel ((n + 1) / 10)

/-- A decimal digit as a character. -/
def digitChar : Nat → Char
  | 0 => '0' | 1 => '1' | 2 => '2' | 3 => '3' | 4 => '4'
  | 5 => '5' | 6 => '6' | 7 => '7' | 8 => '8' | _ => '9'

/-- Python `str(n)` for a natural number. -/
def natRepr (n : Nat) : List Char :=
  if n = 0 then ['0'] else ((digitsGo n n).map digitChar).reverse

example : natRepr 0 = "0".toList := by decide
example : natRepr 304 = "304".toList := by decide

/-- Value of a little-endian digit list. -/
def fromDigits : List Nat → Nat
  | [] => 0
  | d :: ds => d + 10 * fromDigits ds

/-- Inverse of `digitChar` on decimal digits. -/
def digitVal (c : Char) : Nat :=
  if c = '0' then 0 else if c = '1' then 1 else if c = '2' then 2
  else if c = '3' then 3 else if c = '4' then 4 else if c = '5' then 5
  else if c = '6' then 6 else if c = '7' then 7 else if c = '8' then 8 else 9

theorem digitVal_digitChar : ∀ d, d < 10 → digitVal (digitChar d) = d := by decide

theorem digitsGo_lt : ∀ (fuel n : Nat), ∀ d ∈ digitsGo fuel n, d < 10 := by
  intro fuel
  induction fuel with
  | zero => intro n d hd; cases n <;> simp [digitsGo] at hd
  | succ fuel ih =>
    intro n d hd
    cases n with
    | zero => simp [digitsGo] at hd
    | succ m =>
      rw [show digitsGo (fuel + 1) (m + 1) = (m + 1) % 10 :: digitsGo fuel ((m + 1) / 10)
        from rfl] at hd
      rcases List.mem_cons.1 hd with rfl | hd
      · exact Nat.mod_lt _ (by norm_num)
      · exact ih _ _ hd

theorem fromDigits_digitsGo : ∀ (fuel n : Nat), n ≤ fuel →
    fromDigits (digitsGo fuel n) = n := by
  intro fuel
  induction fuel with
  | zero =>
    intro n h
    interval_cases n
    rfl
  | succ fuel ih =>
    intro n h
    cases n with
    | zero => rfl
    | succ m =>
      rw [show digitsGo (fuel + 1) (m + 1) = (m + 1) % 10 :: digitsGo fuel ((m + 1) / 10)
        from rfl]
      rw [fromDigits, ih _ (by
        have : (m + 1) / 10 < m + 1 := Nat.div_lt_self (Nat.succ_pos m) (by norm_num)
        omega)]
      exact Nat.mod_add_div (m + 1) 10

/-- Decode the decimal rendering back to the number. -/
def decodeRepr (cs : List Char) : Nat :=
  fromDigits (cs.reverse.map digitVal)

theorem decodeRepr_natRepr (n : Nat) : decodeRepr (natRepr n) = n := by
  by_cases h : n = 0
  · subst h
    rfl
  · unfold natRepr decodeRepr
    rw [if_neg h, List.reverse_reverse, List.map_map]
    have hmap : (digitsGo n n).map (digitVal ∘ digitChar) = digitsGo n n := by
      have : ∀ d ∈ digitsGo n n, (digitVal ∘ digitChar) d = d := fun d hd =>
        digitVal_digitChar d (digitsGo_lt n n d hd)
      calc (digitsGo n n).map (digitVal ∘ digitChar)
          = (digitsGo n n).map id := List.map_congr_left this
        _ = digitsGo n n := List.map_id _
    rw [hmap, fromDigits_digitsGo n n le_rfl]

theorem natRepr_injective : Function.Injective natRepr := by
  intro a b h
  have h2 := congrArg decodeRepr h
  rwa [decodeRepr_natRepr, decodeRepr_natRepr] at h2

/-- The suffixed candidate names `"{base} {c}"` are pairwise distinct. -/
theorem suffixName_injective (base : List Char) :
    Function.Injective fun c => base ++ ' ' :: natRepr c := by
  intro a b h
  simp only [] at h
  have h2 := List.append_cancel_left h
  injection h2 with _ h3
  exact natRepr_injective h3


/-! ### The clustering controller: `TicketClusteringEngine`
(`clustering.py`).

Python dicts are modelled as insertion-ordered association lists; the
external collaborators (OpenAI embeddings, the naming oracle, scikit-learn
KMeans and TF-IDF, and the vector store's representative/search calls seen
from the controller) are explicit function parameters, so every theorem
about the controller holds for every behaviour of the collaborators.
`Except Unit` models a raised exception. -/

/-- An intermediate cluster map: KMeans label → ticket indices. -/
abbrev IntClusters := List (Nat × List Nat)

/-- A named cluster map: cluster name → ticket indices. -/
abbrev NamedClusters := List (List Char × List Nat)

/-- `d[k] = v` on a Python dict: overwrite the value in place when the key
exists, append the pair otherwise. -/
def dictInsert (m : NamedClusters) (k : List Char) (v : List Nat) : NamedClusters :=
  if m.any fun p => p.1 == k then
    m.map fun p => if p.1 = k then (k, v) else p
  else m ++ [(k, v)]

/-- One step of the grouping loop
`for i, label in enumerate(cluster_labels): clusters[label].append(i)`. -/
def addToGroup (m : IntClusters) (i label : Nat) : IntClusters :=
  if m.any fun p => p.1 == label then
    m.map fun p => if p.1 = label then (p.1, p.2 ++ [i]) else p
  else m ++ [(label, [i])]

/-- Group ticket indices by their KMeans label, in first-occurrence order
(`_cluster_with_openai` lines 124-128, `_cluster_with_sklearn` lines
260-264). -/
def groupByLabel (labels : List Nat) : IntClusters :=
  labels.enum.foldl (fun m p => addToGroup m p.1 p.2) []

/-- The collaborators of one clustering call, as the controller sees them.
`embed` is the OpenAI embeddings request on the preprocessed texts
(`_generate_embeddings`); `kmeans` is `KMeans(...).fit_predict`;
`lexVectors` is `TfidfVectorizer.fit_transform` on the preprocessed texts;
`oracleName` is the per-cluster outcome of `_ask_openai_for_cluster_name`
(`none` = the call raised); `representative` is
`vector_store.get_cluster_representatives(indices, embeddings)` reduced to
its `representative_ticket_idx` (`none` = the empty dict); `searchAt` is
`vector_store.search_similar_tickets(embeddings[rep], min(10, n), 0.8)`
reduced to `(ticket_index, similarity_score)` pairs. -/
structure Collab (V : Type) where
  embed : List (List Char) → Except Unit (List V)
  kmeans : List V → Nat → List Nat
  lexVectors : List (List Char) → Except Unit (List V)
  oracleName : Nat → Option (List Char)
  representative : List Nat → Option Nat
  searchAt : Nat → List (Nat × ℚ)

/-- The name `_generate_cluster_names` gives the cluster labelled `cid`:
the oracle's answer, or the `"Issue Category {cluster_id + 1}"` fallback
when the oracle raised (lines 185-193). -/
def nameOf (oracle : Nat → Option (List Char)) (cid : Nat) : List Char :=
  match oracle cid with
  | some s => s
  | none => "Issue Category ".toList ++ natRepr (cid + 1)

/-- Model of `_generate_cluster_names` (lines 168-195): each cluster's
indices are written into the dict under its name; a repeated name
overwrites the earlier entry. -/
def generateClusterNames (oracle : Nat → Option (List Char)) (clusters : IntClusters) :
    NamedClusters :=
  clusters.foldl (fun named p => dictInsert named (nameOf oracle p.1) p.2) []

/-- The keyword table of `_generate_rule_based_names` (lines 284-293), in
source order. -/
def categoryKeywords : List (List Char × List (List Char)) :=
  [("Network Issues".toList,
     ["vpn".toList, "connection".toList, "network".toList, "internet".toList,
      "wifi".toList, "ethernet".toList, "dns".toList]),
   ("Authentication Problems".toList,
     ["password".toList, "login".toList, "access".toList, "account".toList,
      "authentication".toList, "credentials".toList]),
   ("Email Issues".toList,
     ["outlook".toList, "email".toList, "mail".toList, "exchange".toList,
      "smtp".toList, "inbox".toList]),
   ("Hardware Problems".toList,
     ["printer".toList, "monitor".toList, "keyboard".toList, "mouse".toList,
      "hardware".toList, "device".toList]),
   ("Software Issues".toList,
     ["application".toList, "software".toList, "program".toList, "install".toList,
      "update".toList, "crash".toList]),
   ("Phone Issues".toList,
     ["phone".toList, "voip".toList, "call".toList, "dial".toList,
      "telephone".toList, "extension".toList]),
   ("Security Issues".toList,
     ["virus".toList, "malware".toList, "security".toList, "firewall".toList,
      "antivirus".toList, "threat".toList]),
   ("File Access".toList,
     ["file".toList, "folder".toList, "share".toList, "drive".toList,
      "storage".toList, "permission".toList])]

/-- Python's substring test `needle in hay`. -/
def isSub (needle : List Char) : List Char → Bool
  | [] => needle.isEmpty
  | c :: t => needle.isPrefixOf (c :: t) || isSub needle t

/-- `score = sum(1 for keyword in keywords if keyword in cluster_text)`. -/
def countHits (keywords : List (List Char)) (text : List Char) : Nat :=
  (keywords.filter fun k => isSub k text).length

/-- The best-matching category loop (lines 301-309): strict improvement
over the running best, starting from `("General Issues", 0)`. -/
def bestCategory (text : List Char) : List Char :=
  (categoryKeywords.foldl
    (fun best p =>
      if countHits p.2 text > best.2 then (p.1, countHits p.2 text) else best)
    ("General Issues".toList, 0)).1

/-- The `while best_category in named_clusters` suffix loop (lines
311-316), with explicit fuel; `used.length + 1` rounds of fuel always
suffice to leave the loop. -/
def freshGo (base : List Char) (used : List (List Char)) : Nat → Nat → List Char
  | 0, counter => base ++ ' ' :: natRepr counter
  | fuel + 1, counter =>
    if base ++ ' ' :: natRepr counter ∈ used then freshGo base used fuel (counter + 1)
    else base ++ ' ' :: natRepr counter

/-- The de-duplicated name the rule-based namer assigns. -/
def freshName (base : List Char) (used : List (List Char)) : List Char :=
  if base ∈ used then freshGo base used (used.length + 1) 1 else base

/-- `cluster_text = " ".join(tickets[i].lower() for i in ticket_indices)`
(an index out of range would raise; the in-path indices never are, and the
model reads `[]` there). -/
def clusterText (tickets : List (List Char)) (indices : List Nat) : List Char :=
  joinSpace (indices.map fun i => (tickets.getD i []).map lowerChar)

/-- Model of `_generate_rule_based_names` (lines 272-320): per cluster,
join the lower-cased member tickets, pick the best keyword category,
de-duplicate the name against the dict's keys and insert. -/
def generateRuleBasedNames (tickets : List (List Char)) (clusters : IntClusters) :
    NamedClusters :=
  clusters.foldl
    (fun named p =>
      dictInsert named
        (freshName (bestCategory (clusterText tickets p.2)) (named.map Prod.fst)) p.2)
    []

/-- One similar-ticket move attempt inside
`_enhance_clusters_with_similarity` (lines 381-398): move `hit`'s ticket
into `clusterId`'s list when its score exceeds 0.85, it is not already
there, and the first cluster currently holding it has at most 2 members. -/
def tryMove (clusterId : Nat) (st : IntClusters) (hit : Nat × ℚ) : IntClusters :=
  let ticketIdx := hit.1
  let cur := ((st.find? fun p => p.1 == clusterId).map Prod.snd).getD []
  if hit.2 > 85/100 ∧ ticketIdx ∉ cur then
    match st.find? fun p => p.2.contains ticketIdx with
    | none => st
    | some q =>
      if q.2.length ≤ 2 then
        st.map fun p =>
          if p.1 = q.1 then (p.1, p.2.erase ticketIdx)
          else if p.1 = clusterId then (p.1, p.2 ++ [ticketIdx])
          else p
      else st
  else st

/-- The body of the refinement loop for one cluster (lines 363-398):
skip clusters below 2 members or without statistics, then fold the store's
hits through `tryMove`.  The dict of lists is shared state, read afresh at
every step as the Python lists are. -/
def enhanceStep (c : Collab V) (st : IntClusters) (clusterId : Nat) : IntClusters :=
  let cur := ((st.find? fun p => p.1 == clusterId).map Prod.snd).getD []
  if cur.length < 2 then st
  else
    match c.representative cur with
    | none => st
    | some rep => (c.searchAt rep).foldl (tryMove clusterId) st

/-- Model of `_enhance_clusters_with_similarity` (lines 346-407): visit
every original cluster id, then drop the clusters left empty.  The
function's own `except` branch returns the input unchanged and so
preserves every property proved of the result. -/
def enhanceClusters (c : Collab V) (clusters : IntClusters) : IntClusters :=
  ((clusters.map Prod.fst).foldl (enhanceStep c) clusters).filter fun p => !p.2.isEmpty

/-- Model of `_cluster_with_openai` (lines 95-138): embeddings of the
preprocessed tickets, KMeans over them, grouping, optional store-based
refinement, then naming.  `store_embeddings`' boolean result is dropped by
the source, so the store write does not appear in the value model. -/
def clusterWithOpenai (c : Collab V) (hasStore : Bool) (tickets : List (List Char)) :
    Except Unit NamedClusters := do
  let embeddings ← c.embed (tickets.map preprocessTicket)
  let labels := c.kmeans embeddings (determineClusterCount tickets.length)
  let clusters := groupByLabel labels
  let clusters := if hasStore then enhanceClusters c clusters else clusters
  pure (generateClusterNames c.oracleName clusters)

/-- Model of `_cluster_with_sklearn` (lines 234-270): TF-IDF vectors of the
preprocessed tickets, the same KMeans policy, rule-based names. -/
def clusterWithSklearn (c : Collab V) (tickets : List (List Char)) :
    Except Unit NamedClusters := do
  let m ← c.lexVectors (tickets.map preprocessTicket)
  let labels := c.kmeans m (determineClusterCount tickets.length)
  pure (generateRuleBasedNames tickets (groupByLabel labels))

/-- The emergency fallback `{"General Issues": list(range(len(tickets)))}`. -/
def generalFallback (n : Nat) : NamedClusters :=
  [("General Issues".toList, List.range n)]

/-- Model of `TicketClusteringEngine.cluster_tickets` (lines 70-93): the
single-ticket shortcut, then the path chosen at engine initialisation
(`use_openai`), any exception of which becomes the fallback cluster. -/
def clusterTickets (useOpenai hasStore : Bool) (c : Collab V) (tickets : List (List Char)) :
    NamedClusters :=
  if tickets.length = 1 then [("General Issues".toList, [0])]
  else
    match
      (if useOpenai then clusterWithOpenai c hasStore tickets
       else clusterWithSklearn c tickets) with
    | .ok m => m
    | .error _ => generalFallback tickets.length

/-! ### The partition invariant and the multiset of assigned indices -/

/-- A cluster map is a partition of the batch `0..n-1` when the
concatenation of its index lists is a permutation of `range n`: no index
missing, none duplicated. -/
def IsPartitionOf {α : Type} (m : List (α × List Nat)) (n : Nat) : Prop :=
  ((m.map Prod.snd).flatten).Perm (List.range n)

/-- The multiset of all ticket indices assigned by a cluster map. -/
def clusterVals {α : Type} (m : List (α × List Nat)) : Multiset Nat :=
  (m.map fun p => (p.2 : Multiset Nat)).sum

theorem clusterVals_nil {α : Type} : clusterVals ([] : List (α × List Nat)) = 0 := rfl

theorem clusterVals_cons {α : Type} (p : α × List Nat) (m : List (α × List Nat)) :
    clusterVals (p :: m) = (p.2 : Multiset Nat) + clusterVals m := by
  simp [clusterVals]

theorem clusterVals_append {α : Type} (a b : List (α × List Nat)) :
    clusterVals (a ++ b) = clusterVals a + clusterVals b := by
  simp [clusterVals]

theorem clusterVals_flatten {α : Type} (m : List (α × List Nat)) :
    ((m.map Prod.snd).flatten : Multiset Nat) = clusterVals m := by
  induction m with
  | nil => rfl
  | cons p m ih =>
    rw [List.map_cons, List.flatten_cons, clusterVals_cons, ← ih]
    exact (Multiset.coe_add _ _)

/-- Partitionhood in multiset form. -/
theorem isPartitionOf_iff {α : Type} (m : List (α × List Nat)) (n : Nat) :
    IsPartitionOf m n ↔ clusterVals m = (List.range n : Multiset Nat) := by
  rw [IsPartitionOf, ← Multiset.coe_eq_coe, clusterVals_flatten]

/-- In a map with duplicate-free keys, a key determines its entry. -/
theorem key_unique {α β : Type} {st : List (α × β)} (hnodup : (st.map Prod.fst).Nodup)
    {p r : α × β} (hp : p ∈ st) (hr : r ∈ st) (heq : p.1 = r.1) : p = r := by
  induction st with
  | nil => cases hp
  | cons x st ih =>
    rw [List.map_cons, List.nodup_cons] at hnodup
    rcases List.mem_cons.1 hp with hp1 | hp1
    · rcases List.mem_cons.1 hr with hr1 | hr1
      · rw [hp1, hr1]
      · exfalso
        apply hnodup.1
        rw [← hp1, heq]
        exact List.mem_map_of_mem Prod.fst hr1
    · rcases List.mem_cons.1 hr with hr1 | hr1
      · exfalso
        apply hnodup.1
        rw [← hr1, ← heq]
        exact List.mem_map_of_mem Prod.fst hp1
      · exact ih hnodup.2 hp1 hr1

/-! ### Grouping preserves the index multiset -/

theorem addToGroup_keys (m : IntClusters) (i label : Nat) :
    (addToGroup m i label).map Prod.fst =
      if m.any (fun p => p.1 == label) then m.map Prod.fst
      else m.map Prod.fst ++ [label] := by
  unfold addToGroup
  by_cases h : m.any (fun p => p.1 == label)
  · rw [if_pos h, if_pos h, List.map_map]
    apply List.map_congr_left
    intro p _
    by_cases hp : p.1 = label <;> simp [hp]
  · rw [if_neg h, if_neg h]
    simp

theorem addToGroup_keys_nodup {m : IntClusters} (h : (m.map Prod.fst).Nodup)
    (i label : Nat) : ((addToGroup m i label).map Prod.fst).Nodup := by
  rw [addToGroup_keys]
  by_cases hc : m.any (fun p => p.1 == label)
  · rwa [if_pos hc]
  · rw [if_neg hc]
    have hlab : label ∉ m.map Prod.fst := by
      intro hmem
      obtain ⟨p, hp, hpe⟩ := List.mem_map.1 hmem
      exact hc (List.any_eq_true.2 ⟨p, hp, by simp [hpe]⟩)
    refine List.Nodup.append h (List.nodup_singleton _) ?_
    intro x hx hx'
    have hxl : x = label := by simpa using hx'
    subst hxl
    exact hlab hx

theorem addToGroup_vals {m : IntClusters} (hnodup : (m.map Prod.fst).Nodup)
    (i label : Nat) :
    clusterVals (addToGroup m i label) = clusterVals m + {i} := by
  unfold addToGroup
  by_cases h : m.any (fun p => p.1 == label)
  · rw [if_pos h]
    rw [List.any_eq_true] at h
    obtain ⟨q, hq, hql⟩ := h
    have hql : q.1 = label := by simpa using hql
    obtain ⟨a, b, rfl⟩ := List.append_of_mem hq
    have hkeys := hnodup
    rw [List.map_append, List.map_cons] at hkeys
    have hqa : ∀ p ∈ a, p.1 ≠ label := by
      intro p hp hpe
      have hdj := (List.nodup_append.1 hkeys).2.2
      refine hdj (List.mem_map_of_mem Prod.fst hp) ?_
      rw [hpe, ← hql]
      exact List.mem_cons_self _ _
    have hqb : ∀ p ∈ b, p.1 ≠ label := by
      intro p hp hpe
      have h1 := (List.nodup_append.1 hkeys).2.1
      rw [List.nodup_cons] at h1
      refine h1.1 ?_
      rw [hql, ← hpe]
      exact List.mem_map_of_mem Prod.fst hp
    have ha : a.map (fun p => if p.1 = label then (p.1, p.2 ++ [i]) else p) = a :=
      List.map_congr_left (fun p hp => if_neg (hqa p hp)) |>.trans (List.map_id a)
    have hb : b.map (fun p => if p.1 = label then (p.1, p.2 ++ [i]) else p) = b :=
      List.map_congr_left (fun p hp => if_neg (hqb p hp)) |>.trans (List.map_id b)
    rw [List.map_append, List.map_cons, ha, hb, if_pos hql]
    rw [clusterVals_append, clusterVals_append, clusterVals_cons, clusterVals_cons]
    simp only []
    rw [show ((q.2 ++ [i] : List Nat) : Multiset Nat) = (q.2 : Multiset Nat) + {i} from
      Multiset.coe_add _ _]
    abel
  · rw [if_neg h, clusterVals_append, clusterVals_cons, clusterVals_nil]
    simp

/-- The grouping fold keeps keys duplicate-free and adds exactly the
enumerated indices to the multiset of assigned indices. -/
theorem foldl_addToGroup_invariant (ps : List (Nat × Nat)) :
    ∀ m : IntClusters, (m.map Prod.fst).Nodup →
      ((ps.foldl (fun acc p => addToGroup acc p.1 p.2) m).map Prod.fst).Nodup ∧
      clusterVals (ps.foldl (fun acc p => addToGroup acc p.1 p.2) m) =
        clusterVals m + (ps.map Prod.fst : Multiset Nat) := by
  induction ps with
  | nil =>
    intro m hm
    exact ⟨hm, by simp⟩
  | cons p ps ih =>
    intro m hm
    rw [List.foldl_cons]
    obtain ⟨h1, h2⟩ := ih (addToGroup m p.1 p.2) (addToGroup_keys_nodup hm _ _)
    refine ⟨h1, ?_⟩
    rw [h2, addToGroup_vals hm]
    rw [List.map_cons, show ((p.1 :: ps.map Prod.fst : List Nat) : Multiset Nat) =
      p.1 ::ₘ (ps.map Prod.fst : Multiset Nat) from rfl, ← Multiset.singleton_add]
    abel

theorem groupByLabel_keys_nodup (labels : List Nat) :
    ((groupByLabel labels).map Prod.fst).Nodup :=
  (foldl_addToGroup_invariant labels.enum [] (by simp)).1

/-- Grouping by KMeans labels assigns every ticket index exactly once. -/
theorem groupByLabel_vals (labels : List Nat) :
    clusterVals (groupByLabel labels) = (List.range labels.length : Multiset Nat) := by
  unfold groupByLabel
  rw [(foldl_addToGroup_invariant labels.enum [] (by simp)).2, clusterVals_nil, zero_add,
    List.enum_map_fst]

/-! ### Naming preserves the index multiset -/

/-- The `"Issue Category {cid + 1}"` fallback names are pairwise
distinct. -/
theorem nameOf_none_injective : Function.Injective (nameOf fun _ => none) := by
  intro a b h
  unfold nameOf at h
  simp only [] at h
  have h2 := List.append_cancel_left h
  exact Nat.succ_injective (natRepr_injective h2)

/-- Inserting under a fresh key is an append. -/
theorem dictInsert_not_mem {named : NamedClusters} {k : List Char}
    (h : k ∉ named.map Prod.fst) (v : List Nat) :
    dictInsert named k v = named ++ [(k, v)] := by
  have hfalse : (named.any fun p => p.1 == k) = false := by
    rw [List.any_eq_false]
    intro p hp
    simp only [beq_iff_eq]
    intro hpe
    exact h (hpe ▸ List.mem_map_of_mem Prod.fst hp)
  unfold dictInsert
  rw [hfalse]
  simp

/-- When some candidate in the fuel window is fresh, the suffix loop
answers a name outside `used`. -/
theorem freshGo_not_mem {base : List Char} {used : List (List Char)} :
    ∀ (fuel counter : Nat),
      (∃ c, counter ≤ c ∧ c ≤ counter + fuel ∧ base ++ ' ' :: natRepr c ∉ used) →
      freshGo base used fuel counter ∉ used := by
  intro fuel
  induction fuel with
  | zero =>
    intro counter ⟨c, h1, h2, h3⟩
    have hc : c = counter := by omega
    subst hc
    exact h3
  | succ fuel ih =>
    intro counter ⟨c, h1, h2, h3⟩
    rw [freshGo]
    by_cases hmem : base ++ ' ' :: natRepr counter ∈ used
    · rw [if_pos hmem]
      apply ih
      have hcc : c ≠ counter := by
        intro he
        subst he
        exact h3 hmem
      exact ⟨c, by omega, by omega, h3⟩
    · rw [if_neg hmem]
      exact hmem

/-- Among `used.length + 2` distinct candidate names, one is outside
`used`. -/
theorem exists_cand_not_mem (base : List Char) (used : List (List Char)) (counter : Nat) :
    ∃ c, counter ≤ c ∧ c ≤ counter + (used.length + 1) ∧
      base ++ ' ' :: natRepr c ∉ used := by
  by_contra hall
  push_neg at hall
  have hmap : ∀ x ∈ (List.range (used.length + 2)).map
      (fun i => base ++ ' ' :: natRepr (counter + i)), x ∈ used := by
    intro x hx
    obtain ⟨i, hi, rfl⟩ := List.mem_map.1 hx
    have hi' : i < used.length + 2 := List.mem_range.1 hi
    exact hall (counter + i) (by omega) (by omega)
  have hnodup : ((List.range (used.length + 2)).map
      fun i => base ++ ' ' :: natRepr (counter + i)).Nodup := by
    refine List.Nodup.map ?_ (List.nodup_range _)
    intro a b hab
    have := suffixName_injective base hab
    omega
  have hsub : ((List.range (used.length + 2)).map
      fun i => base ++ ' ' :: natRepr (counter + i)).toFinset ⊆ used.toFinset := by
    intro x hx
    rw [List.mem_toFinset] at hx ⊢
    exact hmap x hx
  have h1 := Finset.card_le_card hsub
  rw [List.toFinset_card_of_nodup hnodup] at h1
  have h2 : used.toFinset.card ≤ used.length := used.toFinset_card_le
  simp only [List.length_map, List.length_range] at h1
  omega

/-- The rule-based namer's de-duplication always answers a key not yet in
the dict. -/
theorem freshName_not_mem (base : List Char) (used : List (List Char)) :
    freshName base used ∉ used := by
  unfold freshName
  by_cases h : base ∈ used
  · rw [if_pos h]
    apply freshGo_not_mem
    obtain ⟨c, h1, h2, h3⟩ := exists_cand_not_mem base used 1
    exact ⟨c, h1, by omega, h3⟩
  · rw [if_neg h]
    exact h

/-- A fold of always-fresh dict inserts appends every cluster's indices
exactly once. -/
theorem foldl_dictInsert_fresh (ν : NamedClusters → Nat × List Nat → List Char)
    (hfresh : ∀ nm p, ν nm p ∉ nm.map Prod.fst) :
    ∀ (clusters : IntClusters) (named : NamedClusters),
      clusterVals (clusters.foldl (fun nm p => dictInsert nm (ν nm p) p.2) named) =
        clusterVals named + clusterVals clusters := by
  intro clusters
  induction clusters with
  | nil =>
    intro named
    simp [clusterVals_nil]
  | cons p cl ih =>
    intro named
    rw [List.foldl_cons, dictInsert_not_mem (hfresh named p) _, ih,
      clusterVals_append, clusterVals_cons, clusterVals_cons, clusterVals_nil]
    abel

/-- `_generate_rule_based_names` preserves the assigned index multiset,
with no side condition: the suffix loop keeps keys fresh. -/
theorem generateRuleBasedNames_vals (tickets : List (List Char)) (clusters : IntClusters) :
    clusterVals (generateRuleBasedNames tickets clusters) = clusterVals clusters := by
  unfold generateRuleBasedNames
  rw [foldl_dictInsert_fresh
    (fun nm p => freshName (bestCategory (clusterText tickets p.2)) (nm.map Prod.fst))
    (fun nm p => freshName_not_mem _ _) clusters []]
  rw [clusterVals_nil, zero_add]

/-- `_generate_cluster_names` preserves the assigned index multiset when
the per-cluster names are pairwise distinct; a repeated name would
overwrite an earlier cluster. -/
theorem generateClusterNames_fold (oracle : Nat → Option (List Char)) :
    ∀ (clusters : IntClusters) (named : NamedClusters),
      (clusters.map fun p => nameOf oracle p.1).Nodup →
      (∀ cid ∈ clusters.map Prod.fst, nameOf oracle cid ∉ named.map Prod.fst) →
      clusterVals (clusters.foldl (fun nm p => dictInsert nm (nameOf oracle p.1) p.2) named) =
        clusterVals named + clusterVals clusters := by
  intro clusters
  induction clusters with
  | nil =>
    intro named _ _
    simp [clusterVals_nil]
  | cons p cl ih =>
    intro named hnodup hdisj
    rw [List.map_cons, List.nodup_cons] at hnodup
    have hp1 : nameOf oracle p.1 ∉ named.map Prod.fst :=
      hdisj p.1 (List.mem_map_of_mem Prod.fst (List.mem_cons_self _ _))
    rw [List.foldl_cons, dictInsert_not_mem hp1 _]
    have hdisj' : ∀ cid ∈ cl.map Prod.fst,
        nameOf oracle cid ∉ (named ++ [(nameOf oracle p.1, p.2)]).map Prod.fst := by
      intro cid hcid
      rw [List.map_append]
      intro hmem
      rcases List.mem_append.1 hmem with hmem | hmem
      · exact hdisj cid (List.mem_cons_of_mem _ hcid) hmem
      · have he : nameOf oracle cid = nameOf oracle p.1 := by simpa using hmem
        obtain ⟨q, hq, rfl⟩ := List.mem_map.1 hcid
        exact hnodup.1 (he ▸ List.mem_map_of_mem (fun r => nameOf oracle r.1) hq)
    rw [ih (named ++ [(nameOf oracle p.1, p.2)]) hnodup.2 hdisj',
      clusterVals_append, clusterVals_cons, clusterVals_cons, clusterVals_nil]
    abel

theorem generateClusterNames_vals {oracle : Nat → Option (List Char)}
    {clusters : IntClusters}
    (hnames : (clusters.map fun p => nameOf oracle p.1).Nodup) :
    clusterVals (generateClusterNames oracle clusters) = clusterVals clusters := by
  unfold generateClusterNames
  rw [generateClusterNames_fold oracle clusters [] hnames (by simp), clusterVals_nil,
    zero_add]

/-! ### Similarity refinement preserves the index multiset -/

/-- Appending `tid` to the (unique) cluster keyed `cid` adds exactly one
occurrence of `tid`, or nothing when `cid` is not a key. -/
theorem clusterVals_map_addTid {cid tid : Nat} :
    ∀ l : IntClusters, (l.map Prod.fst).Nodup →
      clusterVals (l.map fun p => if p.1 = cid then (p.1, p.2 ++ [tid]) else p) =
        clusterVals l + (if cid ∈ l.map Prod.fst then ({tid} : Multiset Nat) else 0) := by
  intro l
  induction l with
  | nil =>
    intro _
    simp [clusterVals_nil]
  | cons p l ih =>
    intro hnodup
    rw [List.map_cons, List.nodup_cons] at hnodup
    rw [List.map_cons]
    by_cases hp : p.1 = cid
    · have hrest : cid ∉ l.map Prod.fst := by
        rw [← hp]
        exact hnodup.1
      have hmapid : (l.map fun r => if r.1 = cid then (r.1, r.2 ++ [tid]) else r) = l := by
        have hne : ∀ r ∈ l, r.1 ≠ cid := by
          intro r hr he
          apply hrest
          rw [← he]
          exact List.mem_map_of_mem Prod.fst hr
        exact (List.map_congr_left fun r hr => if_neg (hne r hr)).trans (List.map_id l)
      rw [if_pos hp, hmapid, clusterVals_cons, clusterVals_cons,
        if_pos (by rw [List.map_cons, hp]; exact List.mem_cons_self _ _)]
      rw [show ((p.2 ++ [tid] : List Nat) : Multiset Nat) =
        (p.2 : Multiset Nat) + ([tid] : List Nat) from Multiset.coe_add _ _]
      have hsing : (([tid] : List Nat) : Multiset Nat) = ({tid} : Multiset Nat) := rfl
      rw [hsing]
      abel
    · rw [if_neg hp, clusterVals_cons, ih hnodup.2, clusterVals_cons]
      have hmem : (cid ∈ (p.1 :: l.map Prod.fst)) ↔ cid ∈ l.map Prod.fst := by
        rw [List.mem_cons]
        constructor
        · rintro (rfl | h)
          · exact absurd rfl hp
          · exact h
        · exact Or.inr
      rw [List.map_cons]
      by_cases hmem2 : cid ∈ l.map Prod.fst
      · rw [if_pos hmem2, if_pos (hmem.2 hmem2)]
        abel
      · rw [if_neg hmem2, if_neg fun h => hmem2 (hmem.1 h)]
        abel

theorem tryMove_keys (cid : Nat) (st : IntClusters) (hit : Nat × ℚ) :
    (tryMove cid st hit).map Prod.fst = st.map Prod.fst := by
  unfold tryMove
  dsimp only
  split
  · split
    · rfl
    · rename_i q hfind
      split
      · rw [List.map_map]
        apply List.map_congr_left
        intro p _
        simp only [Function.comp_apply]
        split
        · rfl
        · split <;> rfl
      · rfl
  · rfl

/-- A similarity move never changes the multiset of assigned indices: the
moved index leaves one cluster and enters another. -/
theorem tryMove_vals (cid : Nat) (st : IntClusters) (hit : Nat × ℚ)
    (hnodup : (st.map Prod.fst).Nodup) (hcid : cid ∈ st.map Prod.fst) :
    clusterVals (tryMove cid st hit) = clusterVals st := by
  unfold tryMove
  dsimp only
  split
  case isFalse => rfl
  case isTrue hcond =>
  split
  case h_1 => rfl
  case h_2 q hfind =>
  split
  case isFalse => rfl
  case isTrue hlen =>
    have hq_mem : q ∈ st := List.mem_of_find?_eq_some hfind
    have htid : hit.1 ∈ q.2 := by
      have := List.find?_some hfind
      simpa using this
    have hqcid : q.1 ≠ cid := by
      intro he
      have hfound : (st.find? fun p => p.1 == cid).isSome := by
        rw [List.find?_isSome]
        exact ⟨q, hq_mem, by simp [he]⟩
      obtain ⟨r, hr⟩ := Option.isSome_iff_exists.1 hfound
      have hr_mem : r ∈ st := List.mem_of_find?_eq_some hr
      have hr_cid : r.1 = cid := by simpa using List.find?_some hr
      have hqr : q = r := key_unique hnodup hq_mem hr_mem (he.trans hr_cid.symm)
      apply hcond.2
      rw [hr]
      simpa [← hqr] using htid
    obtain ⟨a, b, hst⟩ := List.append_of_mem hq_mem
    subst hst
    have hkeys := hnodup
    rw [List.map_append, List.map_cons] at hkeys
    have hqa : ∀ p ∈ a, p.1 ≠ q.1 := by
      intro p hp hpe
      exact (List.nodup_append.1 hkeys).2.2 (List.mem_map_of_mem Prod.fst hp)
        (hpe ▸ List.mem_cons_self _ _)
    have hqb : ∀ p ∈ b, p.1 ≠ q.1 := by
      intro p hp hpe
      have h1 := (List.nodup_append.1 hkeys).2.1
      rw [List.nodup_cons] at h1
      exact h1.1 (hpe ▸ List.mem_map_of_mem Prod.fst hp)
    have hmapa : (a.map fun p => if p.1 = q.1 then (p.1, p.2.erase hit.1)
        else if p.1 = cid then (p.1, p.2 ++ [hit.1]) else p) =
        a.map fun p => if p.1 = cid then (p.1, p.2 ++ [hit.1]) else p :=
      List.map_congr_left fun p hp => if_neg (hqa p hp)
    have hmapb : (b.map fun p => if p.1 = q.1 then (p.1, p.2.erase hit.1)
        else if p.1 = cid then (p.1, p.2 ++ [hit.1]) else p) =
        b.map fun p => if p.1 = cid then (p.1, p.2 ++ [hit.1]) else p :=
      List.map_congr_left fun p hp => if_neg (hqb p hp)
    rw [List.map_append, List.map_cons, hmapa, hmapb, if_pos rfl]
    have hnda : (a.map Prod.fst).Nodup := (List.nodup_append.1 hkeys).1
    have hndb : (b.map Prod.fst).Nodup := by
      have h1 := (List.nodup_append.1 hkeys).2.1
      rw [List.nodup_cons] at h1
      exact h1.2
    rw [clusterVals_append, clusterVals_cons, clusterVals_append, clusterVals_cons,
      clusterVals_map_addTid a hnda, clusterVals_map_addTid b hndb]
    have herase : (q.2 : Multiset Nat) =
        (q.2.erase hit.1 : List Nat) + ({hit.1} : Multiset Nat) := by
      have hperm := List.perm_cons_erase htid
      have := Multiset.coe_eq_coe.2 hperm
      rw [this]
      rw [show ((hit.1 :: q.2.erase hit.1 : List Nat) : Multiset Nat) =
        hit.1 ::ₘ (q.2.erase hit.1 : List Nat) from rfl, ← Multiset.singleton_add]
      abel
    -- cid lies in exactly one of the two key segments
    have hcid2 : cid ∈ a.map Prod.fst ∨ cid ∈ b.map Prod.fst := by
      rw [List.map_append, List.map_cons] at hcid
      rcases List.mem_append.1 hcid with h | h
      · exact Or.inl h
      · rcases List.mem_cons.1 h with he | h
        · exact absurd he.symm hqcid
        · exact Or.inr h
    rcases hcid2 with hina | hinb
    · have hnotb : cid ∉ b.map Prod.fst := by
        intro hb
        exact (List.nodup_append.1 hkeys).2.2 hina (List.mem_cons_of_mem _ hb)
      rw [if_pos hina, if_neg hnotb, herase]
      abel
    · have hnota : cid ∉ a.map Prod.fst := by
        intro ha
        exact (List.nodup_append.1 hkeys).2.2 ha (List.mem_cons_of_mem _ hinb)
      rw [if_neg hnota, if_pos hinb, herase]
      abel

theorem foldl_tryMove_invariant (cid : Nat) :
    ∀ (hits : List (Nat × ℚ)) (st : IntClusters), (st.map Prod.fst).Nodup →
      cid ∈ st.map Prod.fst →
      clusterVals (hits.foldl (tryMove cid) st) = clusterVals st ∧
      (hits.foldl (tryMove cid) st).map Prod.fst = st.map Prod.fst := by
  intro hits
  induction hits with
  | nil =>
    intro st _ _
    exact ⟨rfl, rfl⟩
  | cons hit hits ih =>
    intro st h1 h2
    rw [List.foldl_cons]
    have hkeys := tryMove_keys cid st hit
    obtain ⟨ihv, ihk⟩ := ih (tryMove cid st hit) (by rw [hkeys]; exact h1)
      (by rw [hkeys]; exact h2)
    exact ⟨ihv.trans (tryMove_vals cid st hit h1 h2), ihk.trans hkeys⟩

theorem enhanceStep_invariant {V : Type} (c : Collab V) (st : IntClusters)
    (clusterId : Nat) (hnodup : (st.map Prod.fst).Nodup) :
    clusterVals (enhanceStep c st clusterId) = clusterVals st ∧
    (enhanceStep c st clusterId).map Prod.fst = st.map Prod.fst := by
  unfold enhanceStep
  by_cases hlen : (((st.find? fun p => p.1 == clusterId).map Prod.snd).getD []).length < 2
  · rw [if_pos hlen]
    exact ⟨rfl, rfl⟩
  · rw [if_neg hlen]
    cases hrep : c.representative (((st.find? fun p => p.1 == clusterId).map
        Prod.snd).getD []) with
    | none => exact ⟨rfl, rfl⟩
    | some rep =>
      have hcid : clusterId ∈ st.map Prod.fst := by
        by_contra hn
        have hnone : st.find? (fun p => p.1 == clusterId) = none := by
          rw [List.find?_eq_none]
          intro p hp
          simp only [beq_iff_eq]
          intro hpe
          exact hn (hpe ▸ List.mem_map_of_mem Prod.fst hp)
        rw [hnone] at hlen
        simp at hlen
      exact foldl_tryMove_invariant clusterId (c.searchAt rep) st hnodup hcid

theorem clusterVals_filter {α : Type} (st : List (α × List Nat)) :
    clusterVals (st.filter fun p => !p.2.isEmpty) = clusterVals st := by
  induction st with
  | nil => rfl
  | cons p st ih =>
    rw [List.filter_cons]
    by_cases hp : p.2.isEmpty
    · have hp2 : p.2 = [] := List.isEmpty_iff.1 hp
      rw [clusterVals_cons, hp2]
      simp [hp, ih]
    · have hp' : (!p.2.isEmpty) = true := by simp [hp]
      rw [hp']
      simp only [if_true]
      rw [clusterVals_cons, clusterVals_cons, ih]

/-- The whole refinement pass preserves the assigned index multiset and
only removes keys of emptied clusters. -/
theorem enhanceClusters_vals {V : Type} (c : Collab V) (clusters : IntClusters)
    (hnodup : (clusters.map Prod.fst).Nodup) :
    clusterVals (enhanceClusters c clusters) = clusterVals clusters := by
  unfold enhanceClusters
  rw [clusterVals_filter]
  have hfold : ∀ (ids : List Nat) (st : IntClusters), (st.map Prod.fst).Nodup →
      clusterVals (ids.foldl (enhanceStep c) st) = clusterVals st ∧
      (ids.foldl (enhanceStep c) st).map Prod.fst = st.map Prod.fst := by
    intro ids
    induction ids with
    | nil =>
      intro st _
      exact ⟨rfl, rfl⟩
    | cons i ids ih =>
      intro st h1
      rw [List.foldl_cons]
      obtain ⟨hv, hk⟩ := enhanceStep_invariant c st i h1
      obtain ⟨ihv, ihk⟩ := ih (enhanceStep c st i) (by rw [hk]; exact h1)
      exact ⟨ihv.trans hv, ihk.trans hk⟩
  exact (hfold (clusters.map Prod.fst) clusters hnodup).1

theorem enhanceClusters_keys_nodup {V : Type} (c : Collab V) (clusters : IntClusters)
    (hnodup : (clusters.map Prod.fst).Nodup) :
    ((enhanceClusters c clusters).map Prod.fst).Nodup := by
  unfold enhanceClusters
  have hfold : ∀ (ids : List Nat) (st : IntClusters), (st.map Prod.fst).Nodup →
      (ids.foldl (enhanceStep c) st).map Prod.fst = st.map Prod.fst := by
    intro ids
    induction ids with
    | nil =>
      intro st _
      rfl
    | cons i ids ih =>
      intro st h1
      rw [List.foldl_cons]
      obtain ⟨_, hk⟩ := enhanceStep_invariant c st i h1
      exact (ih (enhanceStep c st i) (by rw [hk]; exact h1)).trans hk

  have hsub : (((clusters.map Prod.fst).foldl (enhanceStep c) clusters).filter
      fun p => !p.2.isEmpty).map Prod.fst |>.Sublist
      (((clusters.map Prod.fst).foldl (enhanceStep c) clusters).map Prod.fst) :=
    (List.filter_sublist _).map Prod.fst
  refine List.Nodup.sublist hsub ?_
  rw [hfold (clusters.map Prod.fst) clusters hnodup]
  exact hnodup

/-! ### Claim theorems: partition and fallback behaviour of the
controller -/

/-- A successful lexical-path result assigns every index exactly once. -/
theorem clusterWithSklearn_vals {V : Type} {c : Collab V} {tickets : List (List Char)}
    {m : NamedClusters}
    (hlex : ∀ ts vs, c.lexVectors ts = .ok vs → vs.length = ts.length)
    (hkm : ∀ vs k, (c.kmeans vs k).length = vs.length)
    (hm : clusterWithSklearn c tickets = .ok m) :
    clusterVals m = (List.range tickets.length : Multiset Nat) := by
  unfold clusterWithSklearn at hm
  cases hv : c.lexVectors (tickets.map preprocessTicket) with
  | error e =>
    rw [hv] at hm
    exact absurd hm (by simp [Bind.bind, Except.bind])
  | ok vs =>
    rw [hv] at hm
    simp only [Bind.bind, Except.bind, pure, Except.pure, Except.ok.injEq] at hm
    rw [← hm, generateRuleBasedNames_vals, groupByLabel_vals, hkm,
      hlex _ _ hv, List.length_map]

/-- A successful embedding-path result assigns every index exactly once,
provided the per-cluster names are pairwise distinct. -/
theorem clusterWithOpenai_vals {V : Type} {c : Collab V} {hasStore : Bool}
    {tickets : List (List Char)} {m : NamedClusters}
    (hembed : ∀ ts vs, c.embed ts = .ok vs → vs.length = ts.length)
    (hkm : ∀ vs k, (c.kmeans vs k).length = vs.length)
    (hname : Function.Injective (nameOf c.oracleName))
    (hm : clusterWithOpenai c hasStore tickets = .ok m) :
    clusterVals m = (List.range tickets.length : Multiset Nat) := by
  unfold clusterWithOpenai at hm
  cases hv : c.embed (tickets.map preprocessTicket) with
  | error e =>
    rw [hv] at hm
    exact absurd hm (by simp [Bind.bind, Except.bind])
  | ok vs =>
    rw [hv] at hm
    simp only [Bind.bind, Except.bind, pure, Except.pure, Except.ok.injEq] at hm
    set labels := c.kmeans vs (determineClusterCount tickets.length) with hlab
    have hlen : labels.length = tickets.length := by
      rw [hlab, hkm, hembed _ _ hv, List.length_map]
    have hg := groupByLabel_keys_nodup labels
    have hnames : ∀ cl : IntClusters, (cl.map Prod.fst).Nodup →
        (cl.map fun p => nameOf c.oracleName p.1).Nodup := by
      intro cl hcl
      rw [show (cl.map fun p => nameOf c.oracleName p.1) =
        (cl.map Prod.fst).map (nameOf c.oracleName) by rw [List.map_map]; rfl]
      exact hcl.map hname
    by_cases hs : hasStore = true
    · rw [hs] at hm
      simp only [if_true] at hm
      rw [← hm, generateClusterNames_vals
        (hnames _ (enhanceClusters_keys_nodup c (groupByLabel labels) hg)),
        enhanceClusters_vals c _ hg, groupByLabel_vals, hlen]
    · have hs' : hasStore = false := by
        cases hasStore
        · rfl
        · exact absurd rfl hs
      rw [hs'] at hm
      simp only [Bool.false_eq_true, if_false] at hm
      rw [← hm, generateClusterNames_vals (hnames _ hg), groupByLabel_vals, hlen]

/-- C1 amended: for every batch of `n ≥ 1` tickets, the cluster map returned
by `cluster_tickets` is a partition of `{0..n-1}` on the single-ticket,
lexical-fallback and single-cluster-fallback paths unconditionally, and on
the embedding path (with or without store refinement) provided the
per-cluster names produced by the naming step — oracle answers, or the
`"Issue Category i"` fallbacks — are pairwise distinct; when two clusters
receive the same name, the later dict write overwrites the earlier cluster
and its indices are dropped. -/
theorem c1_partition {V : Type} (useOpenai hasStore : Bool) (c : Collab V)
    (tickets : List (List Char)) (hn : 1 ≤ tickets.length)
    (hembed : ∀ ts vs, c.embed ts = .ok vs → vs.length = ts.length)
    (hkm : ∀ vs k, (c.kmeans vs k).length = vs.length)
    (hlex : ∀ ts vs, c.lexVectors ts = .ok vs → vs.length = ts.length)
    (hname : Function.Injective (nameOf c.oracleName)) :
    IsPartitionOf (clusterTickets useOpenai hasStore c tickets) tickets.length := by
  rw [isPartitionOf_iff]
  unfold clusterTickets
  by_cases h1 : tickets.length = 1
  · rw [if_pos h1, h1]
    rw [clusterVals_cons, clusterVals_nil]
    rfl
  · rw [if_neg h1]
    cases useOpenai with
    | false =>
      rw [if_neg Bool.false_ne_true]
      split
      · rename_i m heq
        exact clusterWithSklearn_vals hlex hkm heq
      · unfold generalFallback
        rw [clusterVals_cons, clusterVals_nil]
        simp
    | true =>
      rw [if_pos rfl]
      split
      · rename_i m heq
        exact clusterWithOpenai_vals hembed hkm hname heq
      · unfold generalFallback
        rw [clusterVals_cons, clusterVals_nil]
        simp

/-- A collaborator stub: embeddings and TF-IDF always succeed, KMeans puts
everything in one cluster, the naming oracle always fails. -/
def stubCollab : Collab Unit where
  embed := fun ts => .ok (ts.map fun _ => ())
  kmeans := fun vs _ => vs.map fun _ => 0
  lexVectors := fun ts => .ok (ts.map fun _ => ())
  oracleName := fun _ => none
  representative := fun _ => none
  searchAt := fun _ => []

/-- C1 at a concrete 2-ticket batch through the embedding path with store
refinement. -/
theorem c1_partition_witness :
    IsPartitionOf (clusterTickets true true stubCollab ["aa".toList, "bb".toList]) 2 :=
  c1_partition true true stubCollab ["aa".toList, "bb".toList] (by decide)
    (fun ts vs h => by simp only [stubCollab] at h; cases h; simp)
    (fun vs k => by simp [stubCollab])
    (fun ts vs h => by simp only [stubCollab] at h; cases h; simp)
    nameOf_none_injective

/-- A collaborator whose naming oracle answers the same name for every
cluster. -/
def dupOracleCollab : Collab Unit where
  embed := fun ts => .ok (ts.map fun _ => ())
  kmeans := fun _ _ => [0, 0, 1]
  lexVectors := fun ts => .ok (ts.map fun _ => ())
  oracleName := fun _ => some "Dup".toList
  representative := fun _ => none
  searchAt := fun _ => []

/-- C1 fails as stated: on the embedding path, when the naming oracle
answers the same name for two clusters, `named_clusters[name] = indices`
overwrites the first cluster; indices 0 and 1 vanish from the map. -/
theorem c1_counterexample :
    clusterTickets true false dupOracleCollab
        ["aa".toList, "bb".toList, "cc".toList] = [("Dup".toList, [2])] ∧
    ¬ IsPartitionOf (clusterTickets true false dupOracleCollab
        ["aa".toList, "bb".toList, "cc".toList]) 3 := by
  constructor
  · decide
  · unfold IsPartitionOf
    decide

/-- C2 amended: the path is chosen once, at engine initialisation: the
embedding path when the provider is available (`use_openai`), the lexical
path otherwise.  For batches of more than one ticket, when the chosen path
raises, `cluster_tickets` returns the single fallback cluster of all
indices — the embedding path does **not** fall back to the lexical path —
and when the chosen path succeeds its map is returned; the top-level call
never raises (it is a total function). -/
theorem c2_fallback {V : Type} (useOpenai hasStore : Bool) (c : Collab V)
    (tickets : List (List Char)) (h2 : 2 ≤ tickets.length) :
    (useOpenai = true → clusterWithOpenai c hasStore tickets = .error () →
      clusterTickets useOpenai hasStore c tickets = generalFallback tickets.length) ∧
    (useOpenai = false → clusterWithSklearn c tickets = .error () →
      clusterTickets useOpenai hasStore c tickets = generalFallback tickets.length) ∧
    (∀ m, useOpenai = true → clusterWithOpenai c hasStore tickets = .ok m →
      clusterTickets useOpenai hasStore c tickets = m) ∧
    (∀ m, useOpenai = false → clusterWithSklearn c tickets = .ok m →
      clusterTickets useOpenai hasStore c tickets = m) := by
  have hne : tickets.length ≠ 1 := by omega
  refine ⟨?_, ?_, ?_, ?_⟩
  · intro hu herr
    unfold clusterTickets
    rw [if_neg hne, hu, if_pos rfl, herr]
  · intro hu herr
    unfold clusterTickets
    rw [if_neg hne, hu, if_neg Bool.false_ne_true, herr]
  · intro m hu hok
    unfold clusterTickets
    rw [if_neg hne, hu, if_pos rfl, hok]
  · intro m hu hok
    unfold clusterTickets
    rw [if_neg hne, hu, if_neg Bool.false_ne_true, hok]

/-- A collaborator whose embedding provider always fails while the lexical
pipeline works. -/
def failingEmbedCollab : Collab Unit where
  embed := fun _ => .error ()
  kmeans := fun _ _ => [0, 0, 1]
  lexVectors := fun ts => .ok (ts.map fun _ => ())
  oracleName := fun _ => none
  representative := fun _ => none
  searchAt := fun _ => []

/-- C2 fails as stated: with the provider available but failing, the call
returns the single-cluster emergency fallback even though the lexical
path would succeed with a different (two-cluster) map — `cluster_tickets`
never attempts the lexical path at runtime. -/
theorem c2_counterexample :
    clusterTickets true false failingEmbedCollab
        ["vpn down".toList, "vpn slow".toList, "password reset".toList] =
      [("General Issues".toList, [0, 1, 2])] ∧
    clusterWithSklearn failingEmbedCollab
        ["vpn down".toList, "vpn slow".toList, "password reset".toList] =
      .ok [("Network Issues".toList, [0, 1]),
           ("Authentication Problems".toList, [2])] ∧
    [("General Issues".toList, [0, 1, 2])] ≠
      [("Network Issues".toList, [0, 1]), ("Authentication Problems".toList, [2])] := by
  refine ⟨by decide, by rfl, by decide⟩

/-- C2 at a concrete failing-provider batch. -/
theorem c2_fallback_witness :
    2 ≤ (["aa".toList, "bb".toList]).length ∧
    ((true = true → clusterWithOpenai failingEmbedCollab false ["aa".toList, "bb".toList] =
        .error () →
      clusterTickets true false failingEmbedCollab ["aa".toList, "bb".toList] =
        generalFallback (["aa".toList, "bb".toList]).length) ∧
     (true = false → clusterWithSklearn failingEmbedCollab ["aa".toList, "bb".toList] =
        .error () →
      clusterTickets true false failingEmbedCollab ["aa".toList, "bb".toList] =
        generalFallback (["aa".toList, "bb".toList]).length) ∧
     (∀ m, true = true →
      clusterWithOpenai failingEmbedCollab false ["aa".toList, "bb".toList] = .ok m →
      clusterTickets true false failingEmbedCollab ["aa".toList, "bb".toList] = m) ∧
     (∀ m, true = false →
      clusterWithSklearn failingEmbedCollab ["aa".toList, "bb".toList] = .ok m →
      clusterTickets true false failingEmbedCollab ["aa".toList, "bb".toList] = m)) :=
  ⟨by decide, c2_fallback true false failingEmbedCollab ["aa".toList, "bb".toList] (by decide)⟩

/-! ### The vector similarity store: `TicketVectorStore`
(`vector_store.py`).

numpy's float vectors are idealised as real vectors `Fin d → ℝ`; the FAISS
`IndexFlatIP` is the exact top-k inner-product search its contract states.
The metadata entries are an arbitrary type `M`. -/

/-- A `d`-dimensional embedding vector. -/
def Vec (d : Nat) := Fin d → ℝ

/-- `np.linalg.norm(v)**2`: the sum of squares. -/
noncomputable def sumSq (v : Vec d) : ℝ := ∑ i, v i ^ 2

/-- `np.dot(u, v)`. -/
noncomputable def dotProd (u v : Vec d) : ℝ := ∑ i, u i * v i

/-- Model of `TicketVectorStore._normalize_embeddings` for one row
(`vector_store.py` lines 273-286): divide by the L2 norm, a zero norm
replaced by 1 (`np.where(norms == 0, 1, norms)`). -/
noncomputable def normalizeRow (v : Vec d) : Vec d :=
  let norm := Real.sqrt (sumSq v)
  let denom := if norm = 0 then 1 else norm
  fun i => v i / denom

/-- The FAISS index variant of the store (`index_type`). -/
inductive IndexVariant
  | flat
  | ivf
deriving DecidableEq

/-- Observable state of a `TicketVectorStore`: the vectors held by the
FAISS index, the parallel metadata list, the trained flag and the
configured variant. -/
structure VectorStore (d : Nat) (M : Type) where
  vectors : List (Vec d)
  metadata : List M
  isTrained : Bool
  indexType : IndexVariant

/-- Model of `_initialize_index` (lines 46-59): a fresh index of the
configured variant; flat indexes are born trained.  Metadata is untouched
by the source, so it is kept. -/
def reinitIndex (s : VectorStore d M) : VectorStore d M :=
  { s with vectors := [], isTrained := s.indexType == IndexVariant.flat }

/-- A store as `__init__` (lines 27-44) builds it. -/
def initStore (d : Nat) (M : Type) (ty : IndexVariant) : VectorStore d M :=
  { vectors := [], metadata := [], isTrained := ty == IndexVariant.flat, indexType := ty }

/-- The `try` body of `TicketVectorStore.store_embeddings` (lines 72-98):
the length mismatch raises a `ValueError`; an untrained IVF index is
trained when at least 100 vectors arrive and re-initialised otherwise; a
trained index appends the normalized batch and the metadata and answers
`True`, an untrained one answers `False`. -/
noncomputable def storeEmbeddingsBody (s : VectorStore d M) (embeddings : List (Vec d))
    (metadata : List M) : Except String (Bool × VectorStore d M) :=
  if embeddings.length ≠ metadata.length then
    .error "Number of embeddings must match number of metadata entries"
  else
    let normalized := embeddings.map normalizeRow
    let s1 :=
      if ¬s.isTrained ∧ s.indexType = IndexVariant.ivf then
        if 100 ≤ normalized.length then { s with isTrained := true }
        else reinitIndex s
      else s
    if s1.isTrained then
      .ok (true,
        { s1 with vectors := s1.vectors ++ normalized, metadata := s1.metadata ++ metadata })
    else .ok (false, s1)

/-- Model of `store_embeddings` (lines 61-102): the `except` clause turns
every raised error into the return value `False` with the state as it
was. -/
noncomputable def storeEmbeddings (s : VectorStore d M) (embeddings : List (Vec d))
    (metadata : List M) : Bool × VectorStore d M :=
  match storeEmbeddingsBody s embeddings metadata with
  | .ok r => r
  | .error _ => (false, s)

/-- The FAISS `IndexFlatIP.search` contract: inner products of the query
against every stored vector, sorted by descending score, the first `k`
kept.  (`-1` index padding occurs only past the end of this list and is
filtered out by the caller, so it has no model counterpart.) -/
noncomputable def faissTopK (vectors : List (Vec d)) (q : Vec d) (k : Nat) :
    List (Nat × ℝ) :=
  (List.insertionSort (fun a b => b.2 ≤ a.2)
    (vectors.enum.map fun p => (p.1, dotProd q p.2))).take k

/-- Model of `search_similar_tickets` (lines 104-141): empty store answers
`[]`; otherwise normalize the query, search, keep scores at or above the
threshold and pair them with their metadata.  A metadata lookup out of
range raises, and the `except` clause maps that to `[]`. -/
noncomputable def searchSimilarTickets (s : VectorStore d M) (query : Vec d) (k : Nat)
    (threshold : ℝ) : List (M × ℝ) :=
  if s.vectors.length = 0 then []
  else
    let nq := normalizeRow query
    let hits := (faissTopK s.vectors nq k).filter fun h => threshold ≤ h.2
    match hits.mapM fun h => (s.metadata.get? h.1).map fun m => (m, h.2) with
    | some results => results
    | none => []

/-- The upper triangle (excluding the diagonal) of the pairwise similarity
matrix `np.dot(normalized, normalized.T)`, row-major. -/
noncomputable def pairSims : List (Vec d) → List ℝ
  | [] => []
  | x :: xs => (xs.map fun y => dotProd x y) ++ pairSims xs

/-- Model of `_calculate_cluster_cohesion` (lines 288-309): 1.0 for at
most one vector; otherwise the mean of the *strictly positive* entries of
the upper triangle (`upper_triangle[upper_triangle > 0]`), 0.0 when none
is positive. -/
noncomputable def calculateClusterCohesion (rows : List (Vec d)) : ℝ :=
  if rows.length ≤ 1 then 1
  else
    let sims := (pairSims (rows.map normalizeRow)).filter fun x => 0 < x
    if sims.length = 0 then 0 else sims.sum / sims.length

/-- The cohesion score as the spec's words state it: the mean of *all*
pairwise cosine similarities among the selected vectors (upper triangle,
excluding self-pairs), 1.0 for a single vector, 0.0 when there are no
pairs. -/
noncomputable def specCohesion (rows : List (Vec d)) : ℝ :=
  if rows.length ≤ 1 then 1
  else
    let sims := pairSims (rows.map normalizeRow)
    if sims.length = 0 then 0 else sims.sum / sims.length

/-- Model of `TicketClusteringEngine.find_similar_tickets`
(`clustering.py` lines 409-437): `[]` without a store or OpenAI client;
`[]` when embedding the query raises (or returns no vector, which makes
the `[0]` indexing raise); otherwise the store search at threshold 0.5. -/
noncomputable def findSimilarTickets (hasStore useOpenai : Bool) (s : VectorStore d M)
    (embedQuery : Except Unit (List (Vec d))) (k : Nat) : List (M × ℝ) :=
  if ¬hasStore ∨ ¬useOpenai then []
  else
    match embedQuery with
    | .error _ => []
    | .ok [] => []
    | .ok (q :: _) => searchSimilarTickets s q k (1/2)

/-! ### Claim theorems: the store's insert -/

/-- Well-formedness of a store: an untrained index holds no vectors.  The
constructor establishes it and `store_embeddings` preserves it; it is what
makes the IVF re-initialisation observable-state-preserving. -/
def WFStore {d : Nat} {M : Type} (s : VectorStore d M) : Prop :=
  s.isTrained = false → s.vectors = []

/-- The case analysis of one `store_embeddings` call: on success the whole
normalized batch and its metadata are appended; on failure nothing
observable changes; well-formedness and the vector/metadata length balance
are preserved. -/
theorem storeEmbeddings_spec {d : Nat} {M : Type} (s : VectorStore d M)
    (emb : List (Vec d)) (meta : List M) (hwf : WFStore s) :
    ((storeEmbeddings s emb meta).1 = true →
      (storeEmbeddings s emb meta).2.vectors = s.vectors ++ emb.map normalizeRow ∧
      (storeEmbeddings s emb meta).2.metadata = s.metadata ++ meta) ∧
    ((storeEmbeddings s emb meta).1 = false →
      (storeEmbeddings s emb meta).2.vectors = s.vectors ∧
      (storeEmbeddings s emb meta).2.metadata = s.metadata) ∧
    WFStore (storeEmbeddings s emb meta).2 ∧
    (s.vectors.length = s.metadata.length →
      (storeEmbeddings s emb meta).2.vectors.length =
        (storeEmbeddings s emb meta).2.metadata.length) := by
  by_cases hlen : emb.length ≠ meta.length
  · have hse : storeEmbeddings s emb meta = (false, s) := by
      unfold storeEmbeddings storeEmbeddingsBody
      rw [if_pos hlen]
    rw [hse]
    exact ⟨fun h => by simp at h, fun _ => ⟨rfl, rfl⟩, hwf, fun h => h⟩
  · have hlen' : emb.length = meta.length := not_ne_iff.1 hlen
    by_cases hcond : ¬s.isTrained ∧ s.indexType = IndexVariant.ivf
    · by_cases h100 : 100 ≤ (emb.map normalizeRow).length
      · have hse : storeEmbeddings s emb meta = (true,
            { s with
              isTrained := true
              vectors := s.vectors ++ emb.map normalizeRow
              metadata := s.metadata ++ meta }) := by
          unfold storeEmbeddings storeEmbeddingsBody
          rw [if_neg hlen]
          simp only [if_pos hcond, if_pos h100]
          simp
        rw [hse]
        refine ⟨fun _ => ⟨rfl, rfl⟩, fun h => by simp at h, fun h => by simp at h, ?_⟩
        intro h
        simp [hlen', h]
      · have hse : storeEmbeddings s emb meta = (false, reinitIndex s) := by
          unfold storeEmbeddings storeEmbeddingsBody
          rw [if_neg hlen]
          simp only [if_pos hcond, if_neg h100]
          have : (reinitIndex s).isTrained = false := by
            unfold reinitIndex
            simp only [hcond.2]
            rfl
          rw [this]
          rfl
        rw [hse]
        have hsv : s.vectors = [] := hwf (by
          cases h : s.isTrained
          · rfl
          · exact absurd h (by simpa using hcond.1))
        refine ⟨fun h => by simp at h, fun _ => ⟨?_, rfl⟩, fun _ => rfl, ?_⟩
        · rw [hsv]
          rfl
        · intro h
          rw [hsv] at h
          simpa [reinitIndex] using h
    · by_cases htr : s.isTrained
      · have hse : storeEmbeddings s emb meta = (true,
            { s with
              vectors := s.vectors ++ emb.map normalizeRow
              metadata := s.metadata ++ meta }) := by
          unfold storeEmbeddings storeEmbeddingsBody
          rw [if_neg hlen]
          simp only [if_neg hcond, if_pos htr]
        rw [hse]
        refine ⟨fun _ => ⟨rfl, rfl⟩, fun h => by simp at h, fun h => ?_, ?_⟩
        · exact absurd h (by simpa using htr)
        · intro h
          simp [hlen', h]
      · have hse : storeEmbeddings s emb meta = (false, s) := by
          unfold storeEmbeddings storeEmbeddingsBody
          rw [if_neg hlen]
          simp only [if_neg hcond]
          rw [show s.isTrained = false by simpa using htr]
          rfl
        rw [hse]
        exact ⟨fun h => by simp at h, fun _ => ⟨rfl, rfl⟩, hwf, fun h => h⟩

/-- C3 fails as stated: the length-mismatch `ValueError` is raised inside
`store_embeddings`' own `try`, whose broad `except` converts it to the
return value `False`; the caller receives a non-error value, not a raised
validation error. -/
theorem c3_counterexample :
    storeEmbeddingsBody (initStore 2 Unit IndexVariant.flat) [fun _ => 0] [] =
      .error "Number of embeddings must match number of metadata entries" ∧
    storeEmbeddings (initStore 2 Unit IndexVariant.flat) [fun _ => 0] [] =
      (false, initStore 2 Unit IndexVariant.flat) := by
  constructor
  · rfl
  · rfl

/-- C3 amended: a call with mismatched vector/metadata counts raises a
validation error inside the operation, which the operation's own broad
`except` catches, returning `False` with the store unchanged — the
mismatch is rejected, but it does not propagate as a raised error to the
caller. -/
theorem c3_mismatch_rejected {d : Nat} {M : Type} (s : VectorStore d M)
    (embeddings : List (Vec d)) (metadata : List M)
    (h : embeddings.length ≠ metadata.length) :
    storeEmbeddingsBody s embeddings metadata =
      .error "Number of embeddings must match number of metadata entries" ∧
    storeEmbeddings s embeddings metadata = (false, s) := by
  have h1 : storeEmbeddingsBody s embeddings metadata =
      .error "Number of embeddings must match number of metadata entries" := by
    unfold storeEmbeddingsBody
    rw [if_pos h]
  refine ⟨h1, ?_⟩
  unfold storeEmbeddings
  rw [h1]

/-- C3 at a concrete mismatched call. -/
theorem c3_mismatch_witness :
    ([fun _ => 0] : List (Vec 2)).length ≠ ([] : List Unit).length ∧
    (storeEmbeddingsBody (initStore 2 Unit IndexVariant.flat)
        ([fun _ => 0] : List (Vec 2)) ([] : List Unit) =
      .error "Number of embeddings must match number of metadata entries" ∧
     storeEmbeddings (initStore 2 Unit IndexVariant.flat)
        ([fun _ => 0] : List (Vec 2)) ([] : List Unit) =
      (false, initStore 2 Unit IndexVariant.flat)) :=
  ⟨by decide, c3_mismatch_rejected _ _ _ (by decide)⟩

/-- C8: every `store_embeddings` call is atomic on observable state —
either the whole normalized batch and its metadata are appended (return
`True`), or neither the vectors nor the metadata change (return `False`) —
and after any sequence of insert calls starting from a fresh store the
metadata count equals the vector count. -/
theorem c8_store_atomic {d : Nat} {M : Type} :
    (∀ (s : VectorStore d M) (emb : List (Vec d)) (meta : List M), WFStore s →
      ((storeEmbeddings s emb meta).1 = true →
        (storeEmbeddings s emb meta).2.vectors = s.vectors ++ emb.map normalizeRow ∧
        (storeEmbeddings s emb meta).2.metadata = s.metadata ++ meta) ∧
      ((storeEmbeddings s emb meta).1 = false →
        (storeEmbeddings s emb meta).2.vectors = s.vectors ∧
        (storeEmbeddings s emb meta).2.metadata = s.metadata)) ∧
    (∀ (ty : IndexVariant) (batches : List (List (Vec d) × List M)),
      (batches.foldl (fun s b => (storeEmbeddings s b.1 b.2).2)
          (initStore d M ty)).vectors.length =
        (batches.foldl (fun s b => (storeEmbeddings s b.1 b.2).2)
          (initStore d M ty)).metadata.length) := by
  constructor
  · intro s emb meta hwf
    obtain ⟨h1, h2, _, _⟩ := storeEmbeddings_spec s emb meta hwf
    exact ⟨h1, h2⟩
  · intro ty batches
    have hgen : ∀ (bs : List (List (Vec d) × List M)) (s : VectorStore d M), WFStore s →
        s.vectors.length = s.metadata.length →
        (bs.foldl (fun s b => (storeEmbeddings s b.1 b.2).2) s).vectors.length =
          (bs.foldl (fun s b => (storeEmbeddings s b.1 b.2).2) s).metadata.length ∧
        WFStore (bs.foldl (fun s b => (storeEmbeddings s b.1 b.2).2) s) := by
      intro bs
      induction bs with
      | nil => exact fun s _ hlen => ⟨hlen, by assumption⟩
      | cons b bs ih =>
        intro s hwf hlen
        rw [List.foldl_cons]
        obtain ⟨_, _, hwf', hlen'⟩ := storeEmbeddings_spec s b.1 b.2 hwf
        exact ih _ hwf' (hlen' hlen)
    exact (hgen batches (initStore d M ty) (fun _ => rfl) rfl).1

/-- C8 at a concrete insert into a fresh flat store. -/
theorem c8_store_atomic_witness :
    ((∀ (s : VectorStore 2 Unit) (emb : List (Vec 2)) (meta : List Unit), WFStore s →
      ((storeEmbeddings s emb meta).1 = true →
        (storeEmbeddings s emb meta).2.vectors = s.vectors ++ emb.map normalizeRow ∧
        (storeEmbeddings s emb meta).2.metadata = s.metadata ++ meta) ∧
      ((storeEmbeddings s emb meta).1 = false →
        (storeEmbeddings s emb meta).2.vectors = s.vectors ∧
        (storeEmbeddings s emb meta).2.metadata = s.metadata)) ∧
    (∀ (ty : IndexVariant) (batches : List (List (Vec 2) × List Unit)),
      (batches.foldl (fun s b => (storeEmbeddings s b.1 b.2).2)
          (initStore 2 Unit ty)).vectors.length =
        (batches.foldl (fun s b => (storeEmbeddings s b.1 b.2).2)
          (initStore 2 Unit ty)).metadata.length)) ∧
    WFStore (initStore 2 Unit IndexVariant.flat) :=
  ⟨c8_store_atomic, fun _ => rfl⟩

/-! ### Real-vector lemmas: normalization and the cosine bound -/

theorem sumSq_nonneg (v : Vec d) : 0 ≤ sumSq v :=
  Finset.sum_nonneg fun _ _ => sq_nonneg _

theorem sumSq_div (v : Vec d) (c : ℝ) : sumSq (fun i => v i / c) = sumSq v / c ^ 2 := by
  unfold sumSq
  rw [Finset.sum_div]
  exact Finset.sum_congr rfl fun i _ => div_pow _ _ _

/-- Every normalized row has squared norm at most 1 (exactly 1, or 0 for
the zero vector that the `np.where` guard leaves in place). -/
theorem sumSq_normalizeRow_le_one (v : Vec d) : sumSq (normalizeRow v) ≤ 1 := by
  unfold normalizeRow
  dsimp only
  by_cases h : Real.sqrt (sumSq v) = 0
  · rw [if_pos h]
    have hz : sumSq v = 0 :=
      le_antisymm (Real.sqrt_eq_zero'.1 h) (sumSq_nonneg v)
    rw [sumSq_div, hz]
    norm_num
  · rw [if_neg h]
    have hnz : sumSq v ≠ 0 := by
      intro hz
      rw [hz, Real.sqrt_zero] at h
      exact h rfl
    rw [sumSq_div, Real.sq_sqrt (sumSq_nonneg v), div_self hnz]

/-- Cauchy-Schwarz: the inner product of two vectors of norm at most 1
lies in `[-1, 1]`. -/
theorem dotProd_bounds {u v : Vec d} (hu : sumSq u ≤ 1) (hv : sumSq v ≤ 1) :
    -1 ≤ dotProd u v ∧ dotProd u v ≤ 1 := by
  have hcs : (dotProd u v) ^ 2 ≤ sumSq u * sumSq v := by
    unfold dotProd sumSq
    exact Finset.sum_mul_sq_le_sq_mul_sq _ _ _
  have h0u := sumSq_nonneg u
  have h0v := sumSq_nonneg v
  have h1 : (dotProd u v) ^ 2 ≤ 1 := by nlinarith
  constructor <;> nlinarith [sq_nonneg (dotProd u v + 1), sq_nonneg (dotProd u v - 1)]

/-- Every entry of the pairwise-similarity upper triangle is an inner
product of two list members. -/
theorem pairSims_mem {l : List (Vec d)} {x : ℝ} (hx : x ∈ pairSims l) :
    ∃ u ∈ l, ∃ v ∈ l, x = dotProd u v := by
  induction l with
  | nil => simp [pairSims] at hx
  | cons a l ih =>
    rw [show pairSims (a :: l) = (l.map fun y => dotProd a y) ++ pairSims l from rfl] at hx
    rcases List.mem_append.1 hx with hx | hx
    · obtain ⟨y, hy, rfl⟩ := List.mem_map.1 hx
      exact ⟨a, List.mem_cons_self _ _, y, List.mem_cons_of_mem _ hy, rfl⟩
    · obtain ⟨u, hu, v, hv, rfl⟩ := ih hx
      exact ⟨u, List.mem_cons_of_mem _ hu, v, List.mem_cons_of_mem _ hv, rfl⟩

/-- When all list elements lie in `(0, 1]`, the mean lies in `[0, 1]`. -/
theorem mean_mem_unit {l : List ℝ} (hne : l ≠ [])
    (hpos : ∀ x ∈ l, 0 < x) (hle : ∀ x ∈ l, x ≤ 1) :
    0 ≤ l.sum / l.length ∧ l.sum / l.length ≤ 1 := by
  have hlen : 0 < (l.length : ℝ) := by
    have : 0 < l.length := List.length_pos.2 hne
    exact_mod_cast this
  constructor
  · apply div_nonneg _ hlen.le
    exact List.sum_nonneg fun x hx => (hpos x hx).le
  · rw [div_le_one hlen]
    have := List.sum_le_card_nsmul l 1 hle
    simpa using this

/-- C4 amended: the cohesion score is 1.0 for at most one vector, 0.0 when
no pairwise similarity is strictly positive, and otherwise the arithmetic
mean of the *strictly positive* pairwise cosine similarities of the upper
triangle (the source filters `upper_triangle > 0`, so non-positive pairs
are excluded from the mean, not averaged in); it always lies in `[0, 1]`
and hence in `[-1, 1]`. -/
theorem c4_cohesion (d : Nat) (rows : List (Vec d)) :
    (rows.length ≤ 1 → calculateClusterCohesion rows = 1) ∧
    (1 < rows.length →
      ((pairSims (rows.map normalizeRow)).filter fun x => 0 < x) = [] →
      calculateClusterCohesion rows = 0) ∧
    (1 < rows.length →
      ∀ sims, sims = ((pairSims (rows.map normalizeRow)).filter fun x => 0 < x) →
      sims ≠ [] →
      calculateClusterCohesion rows = sims.sum / sims.length) ∧
    0 ≤ calculateClusterCohesion rows ∧ calculateClusterCohesion rows ≤ 1 := by
  have hsims : ∀ x ∈ (pairSims (rows.map normalizeRow)).filter fun x => 0 < x,
      0 < x ∧ x ≤ 1 := by
    intro x hx
    have hpos : 0 < x := by
      have := List.of_mem_filter hx
      simpa using this
    have hmem := List.mem_of_mem_filter hx
    obtain ⟨u, hu, v, hv, rfl⟩ := pairSims_mem hmem
    obtain ⟨u0, _, rfl⟩ := List.mem_map.1 hu
    obtain ⟨v0, _, rfl⟩ := List.mem_map.1 hv
    exact ⟨hpos, (dotProd_bounds (sumSq_normalizeRow_le_one u0)
      (sumSq_normalizeRow_le_one v0)).2⟩
  unfold calculateClusterCohesion
  by_cases hlen : rows.length ≤ 1
  · rw [if_pos hlen]
    refine ⟨fun _ => rfl, fun h => absurd hlen (by omega), fun h => absurd hlen (by omega),
      by norm_num, by norm_num⟩
  · rw [if_neg hlen]
    dsimp only
    by_cases hemp : ((pairSims (rows.map normalizeRow)).filter fun x => 0 < x).length = 0
    · rw [if_pos hemp]
      exact ⟨fun h => absurd h hlen, fun _ _ => rfl,
        fun _ sims hs hne => absurd (hs.trans (List.length_eq_zero.1 hemp)) hne,
        le_refl 0, by norm_num⟩
    · rw [if_neg hemp]
      have hne : ((pairSims (rows.map normalizeRow)).filter fun x => 0 < x) ≠ [] := by
        intro h
        rw [h] at hemp
        exact hemp rfl
      obtain ⟨h0, h1⟩ := mean_mem_unit hne (fun x hx => (hsims x hx).1)
        fun x hx => (hsims x hx).2
      exact ⟨fun h => absurd h hlen, fun _ h => absurd h hne,
        fun _ sims hs _ => by rw [hs], h0, h1⟩

/-- A vector of unit norm is fixed by normalization. -/
theorem normalizeRow_unit {v : Vec d} (h : sumSq v = 1) : normalizeRow v = v := by
  unfold normalizeRow
  rw [h, Real.sqrt_one]
  funext i
  simp

/-- C4 fails as stated: for the unit vectors `(1,0), (1,0), (0,1)` the
pairwise similarities are `1, 0, 0`; the mean of *all* pairs is `1/3`, but
the source filters `upper_triangle > 0` and averages only the strictly
positive entries, answering `1`. -/
theorem c4_counterexample :
    calculateClusterCohesion [![(1:ℝ), 0], ![1, 0], ![0, 1]] = 1 ∧
    specCohesion [![(1:ℝ), 0], ![1, 0], ![0, 1]] = 1 / 3 ∧
    (1 : ℝ) ≠ 1 / 3 := by
  have h10 : sumSq ![(1:ℝ), 0] = 1 := by
    simp [sumSq, Fin.sum_univ_two]
  have h01 : sumSq ![(0:ℝ), 1] = 1 := by
    simp [sumSq, Fin.sum_univ_two]
  have hn1 : normalizeRow ![(1:ℝ), 0] = ![(1:ℝ), 0] := normalizeRow_unit h10
  have hn2 : normalizeRow ![(0:ℝ), 1] = ![(0:ℝ), 1] := normalizeRow_unit h01
  have hd11 : dotProd ![(1:ℝ), 0] ![(1:ℝ), 0] = 1 := by
    simp [dotProd, Fin.sum_univ_two]
  have hd10 : dotProd ![(1:ℝ), 0] ![(0:ℝ), 1] = 0 := by
    simp [dotProd, Fin.sum_univ_two]
  have hmap : ([![(1:ℝ), 0], ![1, 0], ![0, 1]].map normalizeRow) =
      [![(1:ℝ), 0], ![1, 0], ![0, 1]] := by
    simp only [List.map_cons, List.map_nil, hn1, hn2]
  have hps : pairSims [![(1:ℝ), 0], ![1, 0], ![0, 1]] = [1, 0, 0] := by
    simp [pairSims, hd11, hd10]
  have hfil : ([1, 0, 0] : List ℝ).filter (fun x => 0 < x) = [1] := by
    norm_num [List.filter_cons, List.filter_nil]
  refine ⟨?_, ?_, by norm_num⟩
  · unfold calculateClusterCohesion
    rw [if_neg (by norm_num)]
    dsimp only
    rw [hmap, hps, hfil]
    norm_num
  · unfold specCohesion
    rw [if_neg (by norm_num)]
    dsimp only
    rw [hmap, hps]
    norm_num

/-- C4 at concrete inputs: a singleton cluster scores exactly 1, and a
two-vector cluster's score stays within the bounds. -/
theorem c4_cohesion_witness :
    (([![(1:ℝ), 0]] : List (Vec 2)).length ≤ 1 ∧
      calculateClusterCohesion [![(1:ℝ), 0]] = 1) ∧
    (0 ≤ calculateClusterCohesion [![(1:ℝ), 0], ![0, 1]] ∧
      calculateClusterCohesion [![(1:ℝ), 0], ![0, 1]] ≤ 1) :=
  ⟨⟨by simp, (c4_cohesion 2 [![(1:ℝ), 0]]).1 (by simp)⟩,
   (c4_cohesion 2 [![(1:ℝ), 0], ![0, 1]]).2.2.2.1,
   (c4_cohesion 2 [![(1:ℝ), 0], ![0, 1]]).2.2.2.2⟩

/-- C10: `find_similar_tickets` never raises (it is a total function) and
answers `[]` whenever the vector store or the OpenAI client is
unavailable, the query embedding fails (or yields no vector, making the
`[0]` indexing raise), or the store holds no vectors. -/
theorem c10_find_similar (d : Nat) (M : Type) (hasStore useOpenai : Bool)
    (s : VectorStore d M) (embedQuery : Except Unit (List (Vec d))) (k : Nat) :
    (hasStore = false ∨ useOpenai = false →
      findSimilarTickets hasStore useOpenai s embedQuery k = []) ∧
    (embedQuery = .error () →
      findSimilarTickets hasStore useOpenai s embedQuery k = []) ∧
    (embedQuery = .ok [] →
      findSimilarTickets hasStore useOpenai s embedQuery k = []) ∧
    (s.vectors = [] →
      findSimilarTickets hasStore useOpenai s embedQuery k = []) := by
  refine ⟨?_, ?_, ?_, ?_⟩
  · intro h
    unfold findSimilarTickets
    rw [if_pos]
    rcases h with h | h <;> rw [h] <;> simp
  · intro h
    unfold findSimilarTickets
    subst h
    by_cases hc : ¬hasStore ∨ ¬useOpenai
    · rw [if_pos hc]
    · rw [if_neg hc]
  · intro h
    unfold findSimilarTickets
    subst h
    by_cases hc : ¬hasStore ∨ ¬useOpenai
    · rw [if_pos hc]
    · rw [if_neg hc]
  · intro h
    unfold findSimilarTickets
    by_cases hc : ¬hasStore ∨ ¬useOpenai
    · rw [if_pos hc]
    · rw [if_neg hc]
      cases embedQuery with
      | error e => rfl
      | ok l =>
        cases l with
        | nil => rfl
        | cons q qs =>
          dsimp only
          unfold searchSimilarTickets
          rw [if_pos (show s.vectors.length = 0 by rw [h]; rfl)]

/-- C10 at a concrete unavailable-store call. -/
theorem c10_find_similar_witness :
    ((false = false ∨ true = false) ∧
      findSimilarTickets false true (initStore 2 Unit IndexVariant.flat)
        (.ok []) 5 = []) ∧
    ((initStore 2 Unit IndexVariant.flat).vectors = [] ∧
      findSimilarTickets true true (initStore 2 Unit IndexVariant.flat)
        (.error ()) 5 = []) :=
  ⟨⟨Or.inl rfl,
    (c10_find_similar 2 Unit false true (initStore 2 Unit IndexVariant.flat)
      (.ok []) 5).1 (Or.inl rfl)⟩,
   ⟨rfl,
    (c10_find_similar 2 Unit true true (initStore 2 Unit IndexVariant.flat)
      (.error ()) 5).2.1 rfl⟩⟩

/-! ### Claim theorems: the store's search -/

instance scoreDescIsTotal : IsTotal (Nat × ℝ) fun a b => b.2 ≤ a.2 :=
  ⟨fun a b => le_total b.2 a.2⟩

instance scoreDescIsTrans : IsTrans (Nat × ℝ) fun a b => b.2 ≤ a.2 :=
  ⟨fun _ _ _ hab hbc => le_trans hbc hab⟩

/-- A successful `mapM` over `Option` preserves a projected column. -/
theorem mapM_map_eq {α β : Type} {f : α → Option β} {g : α → ℝ} {g' : β → ℝ}
    (hf : ∀ a b, f a = some b → g' b = g a) :
    ∀ {l : List α} {res : List β}, l.mapM f = some res → res.map g' = l.map g := by
  intro l
  induction l with
  | nil =>
    intro res h
    simp only [List.mapM_nil, pure, Option.some.injEq] at h
    rw [← h]
    rfl
  | cons a l ih =>
    intro res h
    rw [List.mapM_cons] at h
    cases hfa : f a with
    | none =>
      rw [hfa] at h
      simp at h
    | some b =>
      rw [hfa] at h
      cases hml : l.mapM f with
      | none =>
        rw [hml] at h
        simp at h
      | some bs =>
        rw [hml] at h
        have h' : b :: bs = res := by simpa using h
        rw [← h', List.map_cons, List.map_cons, hf a b hfa, ih hml]

/-- Every top-k hit's score is the inner product of the query against a
stored vector. -/
theorem faissTopK_mem {vectors : List (Vec d)} {q : Vec d} {k : Nat} {h : Nat × ℝ}
    (hm : h ∈ faissTopK vectors q k) : ∃ v ∈ vectors, h.2 = dotProd q v := by
  unfold faissTopK at hm
  have h1 : h ∈ List.insertionSort (fun a b => b.2 ≤ a.2)
      (vectors.enum.map fun p => (p.1, dotProd q p.2)) :=
    (List.take_sublist _ _).subset hm
  have h2 : h ∈ vectors.enum.map fun p => (p.1, dotProd q p.2) :=
    (List.perm_insertionSort _ _).subset h1
  obtain ⟨p, hp, rfl⟩ := List.mem_map.1 h2
  obtain ⟨i, v⟩ := p
  refine ⟨v, ?_, rfl⟩
  rw [List.enum_eq_zip_range] at hp
  exact (List.of_mem_zip hp).2

/-- The top-k list is sorted by descending score. -/
theorem faissTopK_sorted (vectors : List (Vec d)) (q : Vec d) (k : Nat) :
    (faissTopK vectors q k).Pairwise fun a b => b.2 ≤ a.2 := by
  unfold faissTopK
  exact (List.sorted_insertionSort _ _).sublist (List.take_sublist _ _)

/-- C7: every result of the store's search carries a similarity score in
`[-1, 1]` that is at least the supplied threshold; the results are ordered
by descending similarity; an empty store answers `[]` rather than an
error.  The normalization hypothesis of the theorem holds of every store
built by `store_embeddings` calls; the lemma that follows the theorem
proves it for every fold of inserts from a fresh store. -/
theorem c7_search (d : Nat) (M : Type) (s : VectorStore d M) (query : Vec d) (k : Nat)
    (threshold : ℝ) (hnorm : ∀ v ∈ s.vectors, sumSq v ≤ 1) :
    (∀ r ∈ searchSimilarTickets s query k threshold,
      (-1 ≤ r.2 ∧ r.2 ≤ 1) ∧ threshold ≤ r.2) ∧
    (searchSimilarTickets s query k threshold).Pairwise (fun a b => b.2 ≤ a.2) ∧
    (s.vectors = [] → searchSimilarTickets s query k threshold = []) := by
  by_cases hempty : s.vectors.length = 0
  · have he : searchSimilarTickets s query k threshold = [] := by
      unfold searchSimilarTickets
      rw [if_pos hempty]
    rw [he]
    exact ⟨fun r hr => absurd hr (List.not_mem_nil r), List.Pairwise.nil, fun _ => rfl⟩
  · have hsearch : searchSimilarTickets s query k threshold =
        match ((faissTopK s.vectors (normalizeRow query) k).filter
            fun h => threshold ≤ h.2).mapM
            (fun h => (s.metadata.get? h.1).map fun m => (m, h.2)) with
        | some results => results
        | none => [] := by
      unfold searchSimilarTickets
      rw [if_neg hempty]
    cases hmm : ((faissTopK s.vectors (normalizeRow query) k).filter
        fun h => threshold ≤ h.2).mapM
        (fun h => (s.metadata.get? h.1).map fun m => (m, h.2)) with
    | none =>
      rw [hsearch, hmm]
      exact ⟨fun r hr => absurd hr (List.not_mem_nil r), List.Pairwise.nil,
        fun h => absurd (by rw [h]; rfl) hempty⟩
    | some res =>
      rw [hsearch, hmm]
      dsimp only
      have hsnd : res.map Prod.snd =
          ((faissTopK s.vectors (normalizeRow query) k).filter
            fun h => threshold ≤ h.2).map Prod.snd := by
        refine mapM_map_eq ?_ hmm
        intro a b hab
        cases hg : s.metadata.get? a.1 with
        | none =>
          rw [hg] at hab
          simp at hab
        | some m =>
          rw [hg] at hab
          simp only [Option.map_some', Option.some.injEq] at hab
          rw [← hab]
      refine ⟨?_, ?_, fun h => absurd (by rw [h]; rfl) hempty⟩
      · intro r hr
        have hr2 : r.2 ∈ res.map Prod.snd := List.mem_map_of_mem Prod.snd hr
        rw [hsnd] at hr2
        obtain ⟨hit, hh, hhe⟩ := List.mem_map.1 hr2
        have hthr : threshold ≤ hit.2 := by
          have := List.of_mem_filter hh
          simpa using this
        obtain ⟨v, hv, he2⟩ := faissTopK_mem (List.mem_of_mem_filter hh)
        have hb := dotProd_bounds (sumSq_normalizeRow_le_one query) (hnorm v hv)
        rw [← hhe]
        rw [he2] at hthr ⊢
        exact ⟨⟨hb.1, hb.2⟩, hthr⟩
      · have hps : ((faissTopK s.vectors (normalizeRow query) k).filter
            (fun h => threshold ≤ h.2)).Pairwise (fun a b => b.2 ≤ a.2) :=
          (faissTopK_sorted s.vectors (normalizeRow query) k).sublist
            (List.filter_sublist _)
        have h1 : (res.map Prod.snd).Pairwise fun x y => y ≤ x := by
          rw [hsnd]
          exact List.pairwise_map.2 hps
        exact List.pairwise_map.1 h1

/-- The normalization hypothesis of `c7_search` holds of every store built
by a sequence of `store_embeddings` calls from a fresh store: the source
normalizes every batch before adding it. -/
theorem storesNormalizedAfterInserts (d : Nat) (M : Type) (ty : IndexVariant)
    (batches : List (List (Vec d) × List M)) :
    ∀ v ∈ (batches.foldl (fun st b => (storeEmbeddings st b.1 b.2).2)
      (initStore d M ty)).vectors, sumSq v ≤ 1 := by
  have hgen : ∀ (bs : List (List (Vec d) × List M)) (s : VectorStore d M), WFStore s →
      (∀ v ∈ s.vectors, sumSq v ≤ 1) →
      WFStore (bs.foldl (fun st b => (storeEmbeddings st b.1 b.2).2) s) ∧
      ∀ v ∈ (bs.foldl (fun st b => (storeEmbeddings st b.1 b.2).2) s).vectors,
        sumSq v ≤ 1 := by
    intro bs
    induction bs with
    | nil => exact fun s hwf hv => ⟨hwf, hv⟩
    | cons b bs ih =>
      intro s hwf hv
      rw [List.foldl_cons]
      obtain ⟨hok, hfail, hwf', _⟩ := storeEmbeddings_spec s b.1 b.2 hwf
      refine ih _ hwf' ?_
      intro v hvmem
      cases hres : (storeEmbeddings s b.1 b.2).1 with
      | true =>
        rw [(hok hres).1] at hvmem
        rcases List.mem_append.1 hvmem with hm | hm
        · exact hv v hm
        · obtain ⟨v0, _, rfl⟩ := List.mem_map.1 hm
          exact sumSq_normalizeRow_le_one v0
      | false =>
        rw [(hfail hres).1] at hvmem
        exact hv v hvmem
  exact (hgen batches (initStore d M ty) (fun _ => rfl)
    (by intro v hv; simp [initStore] at hv)).2

/-- A concrete one-vector store holding a unit vector. -/
def oneVecStore : VectorStore 2 Unit where
  vectors := [![(1:ℝ), 0]]
  metadata := [()]
  isTrained := true
  indexType := IndexVariant.flat

/-- C7 at a concrete normalized one-vector store. -/
theorem c7_search_witness :
    (∀ v ∈ oneVecStore.vectors, sumSq v ≤ 1) ∧
    ((∀ r ∈ searchSimilarTickets oneVecStore (fun _ => 0) 5 (1/2),
        (-1 ≤ r.2 ∧ r.2 ≤ 1) ∧ 1/2 ≤ r.2) ∧
      (searchSimilarTickets oneVecStore (fun _ => 0) 5 (1/2)).Pairwise
        (fun a b => b.2 ≤ a.2) ∧
      (oneVecStore.vectors = [] →
        searchSimilarTickets oneVecStore (fun _ => 0) 5 (1/2) = [])) := by
  have hnorm : ∀ v ∈ oneVecStore.vectors, sumSq v ≤ 1 := by
    intro v hv
    have hv' : v = ![(1:ℝ), 0] := by
      simpa [oneVecStore] using hv
    rw [hv']
    rw [show sumSq ![(1:ℝ), 0] = 1 by simp [sumSq, Fin.sum_univ_two]]
  exact ⟨hnorm, c7_search 2 Unit oneVecStore (fun _ => 0) 5 (1/2) hnorm⟩

end ShadowOps
